import Mathlib

/-!
Verification of the commit-coverage analyzer
(src/scripts/cvc5/commit_coverage_analyzer.py).

The Python code is shallowly embedded over `List Char` (the Python `str`
type, one `Char` per code point).  Python regular-expression substitutions
are modelled by explicit recursive scanners with the same leftmost /
greedy semantics as the patterns used in the source; each model carries a
comment naming the pattern it implements.  Python `set` becomes `Finset`,
`dict` becomes an insertion-ordered association list, and floating point
similarity ratios (from the external `difflib` standard-library module,
which is an outside collaborator of this repository) are modelled as an
abstract `Rat`-valued similarity function parameter.
-/

namespace CCA

/-- Python strings are sequences of code points. -/
abbrev Str := List Char

/-- Python's regex class `\s` over ASCII: space, tab, newline, carriage
return, vertical tab, form feed. -/
def isPySpace (c : Char) : Bool :=
  c = ' ' ∨ c = '\t' ∨ c = '\n' ∨ c = '\r' ∨ c = '\x0b' ∨ c = '\x0c'

/-- ASCII decimal digit (model of `str.isdigit` / regex `\d` on the ASCII
signatures this tool handles). -/
def isDigitChar (c : Char) : Bool := '0' ≤ c ∧ c ≤ '9'

/-- The characters `&` and `*` (the regex class `[&*]`). -/
def isSym (c : Char) : Bool := c = '&' ∨ c = '*'

/-- Model of `re.sub(r'\s+', ' ', p)`: every maximal whitespace run becomes
one space.  The flag records whether the previous character was whitespace
(so a continuing run emits nothing). -/
def squeeze : Bool → Str → Str
  | _, [] => []
  | prev, c :: cs =>
    if isPySpace c then
      if prev then squeeze true cs else ' ' :: squeeze true cs
    else c :: squeeze false cs

/-- Remove trailing whitespace (`str.strip`'s right half). -/
def dropTrail (l : Str) : Str := (l.reverse.dropWhile isPySpace).reverse

/-- Model of Python `str.strip()`. -/
def pyStrip (l : Str) : Str := dropTrail (l.dropWhile isPySpace)

theorem lenDropWhileLe (p : Char → Bool) (l : Str) : (l.dropWhile p).length ≤ l.length := by
  induction l with
  | nil => simp
  | cons a t ih => by_cases h : p a <;> simp [List.dropWhile, h] <;> omega

/-- The literal string of six characters spelling the word const and a space. -/
def constSp : Str := "const ".data

/-- The literal string of six characters spelling a space and the word const. -/
def spConst : Str := " const".data

/-- Model of `re.match(r'^(.*?)(\s*[&*]+)$', p)`: the lazy first group makes
the second group the longest suffix consisting of a whitespace run followed
by a nonempty run of reference or pointer symbols.  Returns the first
group and the second group, or nothing when `p` does not end in a symbol. -/
def splitTrailingSyms (p : Str) : Option (Str × Str) :=
  if p.reverse.takeWhile isSym = [] then none
  else
    some (((p.reverse.dropWhile isSym).dropWhile isPySpace).reverse,
      ((p.reverse.dropWhile isSym).takeWhile isPySpace).reverse ++
        (p.reverse.takeWhile isSym).reverse)

/-- Helper for `re.sub(r"\s+([&*])", r"\1", p)` working on the reversed
string: a whitespace run immediately following (in reversed order, i.e.
immediately preceding in the original) a symbol is deleted.  The flag
records being inside the whitespace run after a symbol. -/
def ampRevAux : Bool → Str → Str
  | _, [] => []
  | afterSym, c :: rest =>
    if isSym c then c :: ampRevAux true rest
    else if afterSym ∧ isPySpace c then ampRevAux true rest
    else c :: ampRevAux false rest

/-- Model of `re.sub(r"\s+([&*])", r"\1", p)`: remove whitespace runs that
immediately precede a reference or pointer symbol. -/
def ampSub (l : Str) : Str := (ampRevAux false l.reverse).reverse

/-- Scanner for `re.sub(r",\s*", ", ", s)`; the flag records being inside
the whitespace run after a comma. -/
def commaSubAux : Bool → Str → Str
  | _, [] => []
  | afterComma, c :: rest =>
    if c = ',' then ',' :: ' ' :: commaSubAux true rest
    else if afterComma ∧ isPySpace c then commaSubAux true rest
    else c :: commaSubAux false rest

/-- Model of `re.sub(r",\s*", ", ", s)`: each comma together with the
whitespace run following it becomes a comma and a single space. -/
def commaSub (l : Str) : Str := commaSubAux false l

/-- The reassembly step of `normalize_param`: split off the trailing
symbol run; with a leading const detected the canonical trailing const is
inserted between the stripped base and the squeezed symbols. -/
def np_branch (lc : Bool) (p2 : Str) : Str :=
  match splitTrailingSyms p2 with
  | some bg =>
    if lc then pyStrip bg.1 ++ spConst ++ bg.2.filter (fun c => ¬ c = ' ')
    else pyStrip bg.1 ++ bg.2.filter (fun c => ¬ c = ' ')
  | none => if lc then p2 ++ spConst else p2

/-- The inner `normalize_param` of `normalize_function_signature`
(commit_coverage_analyzer.py lines 954 to 975): collapse whitespace, move a
leading const qualifier behind the base type, squeeze the whitespace out of
the trailing symbol run, and delete whitespace before any symbol. -/
def normalize_param (p : Str) : Str :=
  if constSp.isPrefixOf (pyStrip (squeeze false p)) then
    ampSub (np_branch true (pyStrip ((pyStrip (squeeze false p)).drop 6)))
  else
    ampSub (np_branch false (pyStrip (squeeze false p)))

/-- Parameter-list splitting of `normalize_function_signature`: split on
commas at angle-bracket depth zero, stripping each piece; a nonempty
leftover buffer contributes a final piece. -/
def splitParamsAux : Nat → Str → List Str → Str → List Str
  | _, buf, acc, [] =>
    if buf ≠ [] then (pyStrip buf.reverse :: acc).reverse else acc.reverse
  | depth, buf, acc, c :: rest =>
    let d1 := if c = '<' then depth + 1 else if c = '>' then depth - 1 else depth
    if c = ',' ∧ d1 = 0 then splitParamsAux d1 [] (pyStrip buf.reverse :: acc) rest
    else splitParamsAux d1 (c :: buf) acc rest

/-- Split a parameter list on top-level commas (angle brackets nest). -/
def splitParams (s : Str) : List Str := splitParamsAux 0 [] [] s

/-- Validity of the tail after the closing parenthesis for the pattern
`\).*$`: the dot never crosses a newline and the dollar also matches just
before one final newline.  Returns the tail with that final newline
removed, or nothing when an interior newline makes the pattern fail. -/
def suffixCheck (tail : Str) : Option Str :=
  if tail.contains '\n' then
    match tail.getLast? with
    | some lc =>
      if lc = '\n' ∧ ¬ (tail.dropLast.contains '\n') then some tail.dropLast else none
    | none => none
  else some tail

/-- Search for the lazily shortest nonempty middle group `(.+?)` followed
by a closing parenthesis whose tail satisfies `\).*$`.  The accumulator
holds the middle seen so far, reversed.  A newline stops the search (the
regex dot does not match it). -/
def closeSearch : Str → Str → Option (Str × Str)
  | _, [] => none
  | mid, c :: rest =>
    if c = '\n' then none
    else if c = ')' then
      if mid ≠ [] then
        match suffixCheck rest with
        | some body => some (mid.reverse, body)
        | none => closeSearch (c :: mid) rest
      else closeSearch (c :: mid) rest
    else closeSearch (c :: mid) rest

/-- Search for the lazily first opening parenthesis (group `(.*?\()`) from
which the rest of the pattern matches.  The accumulator holds the prefix
seen so far, reversed.  Returns the first group (prefix including the
opening parenthesis), the middle group, and the tail after the closing
parenthesis. -/
def parenSearch : Str → Str → Option (Str × Str × Str)
  | _, [] => none
  | acc, c :: rest =>
    if c = '\n' then none
    else if c = '(' then
      match closeSearch [] rest with
      | some (mid, body) => some ((c :: acc).reverse, mid, body)
      | none => parenSearch (c :: acc) rest
    else parenSearch (c :: acc) rest

/-- Join normalized parameters with a comma and a space. -/
def joinComma (ps : List Str) : Str := List.intercalate (", ".data) ps

/-- Model of `normalize_function_signature` (lines 923 to 982): split the
signature by `re.match(r'^(.*?\()(.+?)(\).*)$', func_sig)` into prefix,
parameter list and suffix; when the pattern fails return the input
unchanged; otherwise split the parameters on top-level commas, drop empty
pieces, normalize each and rejoin. -/
def normalize_function_signature (func_sig : Str) : Str :=
  match parenSearch [] func_sig with
  | none => func_sig
  | some (pre, mid, body) =>
    let nps := ((splitParams mid).filter (fun p => p ≠ [])).map normalize_param
    pre ++ joinComma nps ++ ')' :: body

/-- Model of `strip_line_suffix` / `build_signature_key`: drop a trailing
colon and digit run (the defining-line suffix); anything else is kept. -/
def strip_line_suffix (s : Str) : Str :=
  let r := s.reverse
  let lastR := r.takeWhile (fun c => ¬ c = ':')
  if lastR.length = r.length then s
  else
    let lastPart := lastR.reverse
    if lastPart ≠ [] ∧ lastPart.all isDigitChar then (r.drop (lastR.length + 1)).reverse
    else s

/-- Model of `build_signature_key` (lines 694 to 700), identical logic to
the matcher's local `strip_line_suffix`. -/
def build_signature_key (signature : Str) : Str := strip_line_suffix signature

/-- Model of `split_path_and_sig` (lines 763 to 768): strip the line
suffix, then split at the first colon into path and signature; without a
colon the path is empty. -/
def split_path_and_sig (key : Str) : Str × Str :=
  let nl := strip_line_suffix key
  let pre := nl.takeWhile (fun c => ¬ c = ':')
  if pre.length = nl.length then ([], nl)
  else (pre, nl.drop (pre.length + 1))

/-- The twelve characters opening a std::vector template instance. -/
def vecHdr : Str := "std::vector<".data

/-- Characters allowed inside the regex group `([^,>]+)`. -/
def notInnerEnd (c : Char) : Bool := ¬ (c = ',' ∨ c = '>')

/-- Try the pattern `std::vector<([^,>]+)>` at the head of the string.
The character class cannot cross a comma or closing angle, so the greedy
match is deterministic: take the maximal run and require a closing angle
right after it.  Returns the captured group and the rest of the string. -/
def matchVec (l : Str) : Option (Str × Str) :=
  if vecHdr.isPrefixOf l then
    let after := l.drop 12
    let inner := after.takeWhile notInnerEnd
    if inner = [] then none
    else
      match after.dropWhile notInnerEnd with
      | '>' :: r2 => some (inner, r2)
      | _ => none
  else none

theorem matchVec_len {l i r : Str} (h : matchVec l = some (i, r)) : r.length < l.length := by
  unfold matchVec at h
  by_cases hp : vecHdr.isPrefixOf l
  · simp only [hp, if_true] at h
    have hlen : 12 ≤ l.length := by
      have := (List.isPrefixOf_iff_prefix).1 hp
      have := this.length_le
      simpa [vecHdr] using this
    by_cases hi : (l.drop 12).takeWhile notInnerEnd = []
    · simp [hi] at h
    · simp only [hi, if_false, if_neg hi] at h
      rcases hdw : (l.drop 12).dropWhile notInnerEnd with _ | ⟨c, r2⟩
      · rw [hdw] at h; simp at h
      · rw [hdw] at h
        have hd : ((l.drop 12).dropWhile notInnerEnd).length ≤ (l.drop 12).length :=
          lenDropWhileLe _ _
        rw [hdw] at hd
        simp only [List.length_cons] at hd
        have hdrop : (l.drop 12).length = l.length - 12 := by simp
        by_cases hc : c = '>'
        · subst hc
          simp only [if_pos rfl] at h
          cases h
          omega
        · simp [hc] at h
  · simp [hp] at h

/-- The replacement callback `expand_vector`: the stripped capture becomes
a vector with its allocator spelled out. -/
def vecRepl (innerRaw : Str) : Str :=
  let inner := pyStrip innerRaw
  vecHdr ++ inner ++ ", std::allocator<".data ++ inner ++ "> >".data

/-- The scanner behind `vecExpand`, with a step budget so that the
recursion is structural (each step consumes at least one character, so a
budget of the input length always suffices). -/
def vecExpandFuel : Nat → Str → Str
  | 0, l => l
  | _ + 1, [] => []
  | fuel + 1, c :: rest =>
    match matchVec (c :: rest) with
    | some p => vecRepl p.1 ++ vecExpandFuel fuel p.2
    | none => c :: vecExpandFuel fuel rest

/-- Model of `re.sub(r"std::vector<([^,>]+)>", expand_vector, base)`: scan
left to right, replacing each match and resuming after it; replacement
text is not rescanned. -/
def vecExpand (l : Str) : Str := vecExpandFuel l.length l

/-- Model of the matcher's `normalize_to_compare` (lines 770 to 787):
strip the line suffix, run `normalize_function_signature`, delete spaces
before symbols, canonicalize comma spacing, collapse whitespace and strip,
then expand std::vector allocators. -/
def normalize_to_compare (sig_or_key : Str) : Str :=
  vecExpand (pyStrip (squeeze false (commaSub (ampSub
    (normalize_function_signature (strip_line_suffix sig_or_key))))))

/-- Model of Python `str.splitlines()` for the terminators that occur in
source text: newline, carriage return, and the pair of both.  A trailing
terminator produces no extra empty line. -/
def splitLinesAux : Str → Str → List Str
  | [], acc => if acc = [] then [] else [acc.reverse]
  | '\r' :: '\n' :: rest, acc => acc.reverse :: splitLinesAux rest []
  | '\r' :: rest, acc => acc.reverse :: splitLinesAux rest []
  | '\n' :: rest, acc => acc.reverse :: splitLinesAux rest []
  | c :: rest, acc => splitLinesAux rest (c :: acc)

/-- Split source text into lines. -/
def splitLines (s : Str) : List Str := splitLinesAux s []

/-- Rejoin a line slice with newlines (the body snippet construction in
`get_commit_functions`). -/
def joinNL (lines : List Str) : Str := List.intercalate (String.data "\n") lines

/-- Scanner for `re.sub(r'//.*', '', code)`; the flag records being inside
a line comment, which ends just before the next newline. -/
def dlcAux : Bool → Str → Str
  | _, [] => []
  | true, c :: rest => if c = '\n' then c :: dlcAux false rest else dlcAux true rest
  | false, '/' :: '/' :: rest => dlcAux true rest
  | false, c :: rest => c :: dlcAux false rest

/-- Model of `re.sub(r'//.*', '', code)`: from each pair of slashes to the
end of its line (the regex dot stops before a newline). -/
def dropLineComments (code : Str) : Str := dlcAux false code

/-- Find the first closing delimiter of a block comment and return the
text after it. -/
def findClose : Str → Option Str
  | [] => none
  | [_] => none
  | a :: b :: rest => if a = '*' ∧ b = '/' then some rest else findClose (b :: rest)

theorem findClose_len : ∀ {l r : Str}, findClose l = some r → r.length < l.length := by
  intro l
  induction l with
  | nil => intro r h; simp [findClose] at h
  | cons a t ih =>
    intro r h
    cases t with
    | nil => simp [findClose] at h
    | cons b rest =>
      by_cases hab : a = '*' ∧ b = '/'
      · simp only [findClose, if_pos hab, Option.some.injEq] at h
        subst h
        simp only [List.length_cons]
        omega
      · simp only [findClose, if_neg hab] at h
        have := ih h
        simp only [List.length_cons] at this ⊢
        omega

/-- The scanner behind `dropBlockComments`, with a step budget so that
the recursion is structural (each step consumes at least one character,
so a budget of the input length always suffices). -/
def dbcFuel : Nat → Str → Str
  | 0, l => l
  | _ + 1, [] => []
  | fuel + 1, '/' :: '*' :: rest =>
    (match findClose rest with
     | some r2 => dbcFuel fuel r2
     | none => '/' :: '*' :: rest)
  | fuel + 1, c :: rest => c :: dbcFuel fuel rest

/-- Model of `re.sub(r'/\*.*?\*/', '', code, flags=re.S)`: a lazily
shortest block comment is removed; an unterminated opener is left in
place (nothing after it can match either). -/
def dropBlockComments (code : Str) : Str := dbcFuel code.length code

/-- Model of `normalize_code` (lines 702 to 707): drop line comments, then
block comments, then collapse whitespace and strip. -/
def normalize_code (code : Str) : Str :=
  pyStrip (squeeze false (dropBlockComments (dropLineComments code)))

/-- One extracted function definition (the dicts built by
`parse_functions_from_text`): primary signature, optional alternate
signature, and the lexical line span.  The Python keys start and end are
`startL` and `endL` here. -/
structure FuncSpan where
  signature : Str
  alt_signature : Option Str
  startL : Nat
  endL : Nat
deriving DecidableEq, Repr

/-- The local `normalized_body` helper of `get_commit_functions` (lines
572 to 577): slice the split source by the clamped line span, rejoin and
normalize. -/
def normalized_body (src : Str) (f : FuncSpan) : Str :=
  let lines := splitLines src
  let s := max 1 f.startL
  let e := min lines.length f.endL
  normalize_code (joinNL ((lines.drop (s - 1)).take (e - (s - 1))))

/-- The pure-move test of `get_commit_functions` (lines 594 to 601): a
selected function is a pure move when the parent revision exists, has a
function under the same signature key, and both normalized body slices
are equal. -/
def is_pure_move (before_src : Option Str) (before_by_sig : List (Str × FuncSpan))
    (after_src : Str) (sig_key : Str) (f : FuncSpan) : Bool :=
  match before_src with
  | none => false
  | some bs =>
    match List.lookup sig_key before_by_sig with
    | none => false
    | some bf => decide (normalized_body bs bf = normalized_body after_src f)

/-- The emission filter of `get_commit_functions` (lines 592 to 603):
selected functions survive exactly when they are not pure moves. -/
def emit_changed (before_src : Option Str) (before_by_sig : List (Str × FuncSpan))
    (after_src : Str) (selected : List (Str × FuncSpan)) : List (Str × FuncSpan) :=
  selected.filter (fun kf => ! is_pure_move before_src before_by_sig after_src kf.1 kf.2)

/-- The mapping entries emitted for surviving functions (line 602). -/
def mapping_entries (file_path : Str) (kept : List (Str × FuncSpan)) : List Str :=
  kept.map (fun kf => file_path ++ ':' :: kf.2.signature)

/-- Is there a double colon anywhere in the string. -/
def hasDC : Str → Bool
  | [] => false
  | [_] => false
  | a :: b :: rest => (a = ':' ∧ b = ':') ∨ hasDC (b :: rest)

/-- The text before the first double colon (`head.split('::', 1)[0]`). -/
def beforeDC : Str → Str
  | [] => []
  | [c] => [c]
  | a :: b :: rest => if a = ':' ∧ b = ':' then [] else a :: beforeDC (b :: rest)

/-- Model of `is_cvc5_function` (lines 504 to 523): look only at the
qualified name before the parameter list; reject standard-library and
compiler-internal namespaces, accept anything mentioning the cvc5
namespace, and fall back to accepting any other namespaced name. -/
def is_cvc5_function (signature : Str) : Bool :=
  let head := signature.takeWhile (fun c => ¬ c = '(')
  if ("std::".data).isPrefixOf head ∨ ("__".data).isPrefixOf head ∨
      ("__gnu_cxx::".data).isPrefixOf head then false
  else if decide (("cvc5::".data) <:+: head) then true
  else if hasDC head then
    let ns := beforeDC head
    ns ≠ [] ∧ ns ≠ ("std".data) ∧ ¬ (("__".data).isPrefixOf ns) ∧ ns ≠ ("__gnu_cxx".data)
  else false

/-- The sort key of the innermost-function selection (line 588): span
length first, then start line, as signed integers like Python ints. -/
def pyKey (f : FuncSpan) : Int × Int := ((f.endL : Int) - (f.startL : Int), (f.startL : Int))

/-- Strict lexicographic comparison of Python pairs. -/
def keyLt (a b : Int × Int) : Bool := a.1 < b.1 ∨ (a.1 = b.1 ∧ a.2 < b.2)

/-- Python `min(candidates, key=...)`: walk the list keeping the current
best, replacing it only on a strictly smaller key, so the first minimum
wins ties. -/
def pymin (key : FuncSpan → Int × Int) (x : FuncSpan) (xs : List FuncSpan) : FuncSpan :=
  xs.foldl (fun best y => if keyLt (key y) (key best) then y else best) x

/-- The candidate spans for one changed line (lines 582 to 584): qualifying
functions whose span contains the line. -/
def candidates (after_funcs : List FuncSpan) (ln : Nat) : List FuncSpan :=
  (after_funcs.filter (fun f => is_cvc5_function f.signature)).filter
    (fun f => f.startL ≤ ln ∧ ln ≤ f.endL)

/-- The innermost-function choice for one changed line (lines 583 to 588):
none when no span contains the line, otherwise the minimum under
`pyKey`. -/
def choose_innermost (after_funcs : List FuncSpan) (ln : Nat) : Option FuncSpan :=
  match candidates after_funcs ln with
  | [] => none
  | c :: cs => some (pymin pyKey c cs)

/-- The decimal digit character for a value below ten. -/
def toDigitChar (d : Nat) : Char := Char.ofNat (48 + d)

/-- Decimal rendering with a recursion budget (a budget above the value
always suffices because dividing by ten strictly shrinks it). -/
def natLitFuel : Nat → Nat → Str
  | 0, n => [toDigitChar n]
  | fuel + 1, n =>
    if n < 10 then [toDigitChar n] else natLitFuel fuel (n / 10) ++ [toDigitChar (n % 10)]

/-- Decimal rendering of a natural number, used when building the text of
a unified diff hunk header. -/
def natLit (n : Nat) : Str := natLitFuel n n

/-- The numeric value of a digit run (most significant first). -/
def digitsVal (ds : Str) : Nat := ds.foldl (fun a c => 10 * a + (c.toNat - 48)) 0

/-- Greedy `\d+`: take the maximal digit run; fail when it is empty. -/
def parseDigits (l : Str) : Option (Nat × Str) :=
  if l.takeWhile isDigitChar = [] then none
  else some (digitsVal (l.takeWhile isDigitChar), l.dropWhile isDigitChar)

/-- The optional `(?:,\d+)?` group: when a comma with at least one digit
follows, consume it, otherwise consume nothing. -/
def afterNum (r : Str) : Option Str :=
  if r.head? = some ',' then (parseDigits (r.drop 1)).map Prod.snd else some r

/-- Try the hunk-header pattern `@@ -\d+(?:,\d+)? \+(\d+)(?:,(\d+))? @@`
at the head of the string, returning the first capture (the new-side
start line).  Digit runs are maximal, so no backtracking can help a
failed alternative. -/
def matchPat (l : Str) : Option Nat :=
  if ("@@ -".data).isPrefixOf l then
    (parseDigits (l.drop 4)).bind (fun pr1 =>
      (afterNum pr1.2).bind (fun r2 =>
        if (" +".data).isPrefixOf r2 then
          (parseDigits (r2.drop 2)).bind (fun pr3 =>
            (afterNum pr3.2).bind (fun r4 =>
              if (" @@".data).isPrefixOf r4 then some pr3.1 else none))
        else none))
  else none

/-- Model of `re.search` with the hunk-header pattern: try every start
position from the left and keep the first match. -/
def findHunk : Str → Option Nat
  | [] => matchPat []
  | c :: t =>
    match matchPat (c :: t) with
    | some v => some v
    | none => findHunk t

/-- The walker state of `get_changed_lines` (lines 118 to 121): current
file, hunk flag, new-side counter, and the per-file recorded line sets
(insertion-ordered, like the Python dict of sets). -/
structure DState where
  current_file : Option Str
  in_hunk : Bool
  new_line : Option Nat
  changed : List (Str × List Nat)
deriving DecidableEq, Repr

/-- Set insertion for the recorded line numbers. -/
def insertNat (l : List Nat) (n : Nat) : List Nat := if n ∈ l then l else l ++ [n]

/-- Python `changed_lines[f] = set()` when the key is absent. -/
def ensureEntry (A : List (Str × List Nat)) (f : Str) : List (Str × List Nat) :=
  if (List.lookup f A).isSome then A else A ++ [(f, [])]

/-- Python `changed_lines[f].add(n)` (the key is always present when this
runs, because every current file was ensured at its header). -/
def addLn (A : List (Str × List Nat)) (f : Str) (n : Nat) : List (Str × List Nat) :=
  A.map (fun p => if p.1 = f then (p.1, insertNat p.2 n) else p)

/-- An addition body line: starts with one marker but not three. -/
def isPlusLine (b : Str) : Bool :=
  ("+".data).isPrefixOf b ∧ ¬ ("+++".data).isPrefixOf b

/-- A deletion body line: starts with one marker but not three. -/
def isMinusLine (b : Str) : Bool :=
  ("-".data).isPrefixOf b ∧ ¬ ("---".data).isPrefixOf b

/-- One step of the diff walker of `get_changed_lines` (lines 124 to 156):
a git boundary resets the state, a new-file header selects the current
file, a hunk header (searched with the regex, and only accepted for a
truthy current file) initializes the new-side counter, and inside a hunk
an addition records and advances, a deletion leaves the counter alone,
and anything else advances without recording. -/
def stepLine (st : DState) (raw : Str) : DState :=
  if ("diff --git ".data).isPrefixOf raw then
    { st with current_file := none, in_hunk := false, new_line := none }
  else if ("+++ b/".data).isPrefixOf raw then
    let f := raw.drop 6
    { st with current_file := some f, changed := ensureEntry st.changed f }
  else if ("@@ ".data).isPrefixOf raw then
    match st.current_file, findHunk raw with
    | some f, some c =>
      if f ≠ [] then { st with new_line := some c, in_hunk := true }
      else { st with in_hunk := false, new_line := none }
    | _, _ => { st with in_hunk := false, new_line := none }
  else
    match st.in_hunk, st.current_file, st.new_line with
    | true, some f, some n =>
      if isPlusLine raw then
        { st with changed := addLn st.changed f n, new_line := some (n + 1) }
      else if isMinusLine raw then st
      else { st with new_line := some (n + 1) }
    | _, _, _ => st

/-- The initial walker state. -/
def initDState : DState := ⟨none, false, none, []⟩

/-- Model of `get_changed_lines` (lines 114 to 157) on the list of diff
lines (the split on newlines of the diff text). -/
def get_changed_lines (lines : List Str) : List (Str × List Nat) :=
  (lines.foldl stepLine initDState).changed

/-- A structured hunk of a zero-context unified diff: the four header
numbers and the body lines (each starting with an addition or deletion
marker). -/
structure Hunk where
  oldStart : Nat
  oldCount : Nat
  newStart : Nat
  newCount : Nat
  body : List Str
deriving DecidableEq, Repr

/-- A structured per-file diff section. -/
structure FileDiff where
  path : Str
  hunks : List Hunk
deriving DecidableEq, Repr

/-- The rendered text of a hunk header. -/
def hunkHeader (h : Hunk) : Str :=
  ("@@ -".data) ++ natLit h.oldStart ++ ',' :: natLit h.oldCount ++
    (" +".data) ++ natLit h.newStart ++ ',' :: natLit h.newCount ++ (" @@".data)

/-- The rendered lines of a hunk: header then body. -/
def renderHunk (h : Hunk) : List Str := hunkHeader h :: h.body

/-- The rendered lines of a per-file section: git boundary, old and new
file headers, then the hunks. -/
def renderFile (fd : FileDiff) : List Str :=
  (("diff --git a/".data) ++ fd.path ++ (" b/".data) ++ fd.path) ::
  (("--- a/".data) ++ fd.path) ::
  (("+++ b/".data) ++ fd.path) ::
  (fd.hunks.flatMap renderHunk)

/-- The rendered lines of a whole zero-context diff. -/
def render (d : List FileDiff) : List Str := d.flatMap renderFile

/-- The per-hunk counter walk of the amended claim: an addition line (one
marker, not three) records the counter and advances it; a deletion line
(one marker, not three) leaves it unchanged; any other body line advances
without recording. -/
def claimWalk (p : Str) : Nat → List Str → List (Str × List Nat) → Nat × List (Str × List Nat)
  | n, [], A => (n, A)
  | n, b :: bs, A =>
    if isPlusLine b then claimWalk p (n + 1) bs (addLn A p n)
    else if isMinusLine b then claimWalk p n bs A
    else claimWalk p (n + 1) bs A

/-- The contribution of one hunk under the amended claim. -/
def specAddHunk (p : Str) (A : List (Str × List Nat)) (h : Hunk) : List (Str × List Nat) :=
  (claimWalk p h.newStart h.body A).2

/-- The contribution of one file section under the amended claim. -/
def specAddFile (A : List (Str × List Nat)) (fd : FileDiff) : List (Str × List Nat) :=
  fd.hunks.foldl (fun B h => specAddHunk fd.path B h) (ensureEntry A fd.path)

/-- The per-file recorded line sets the amended claim predicts for a
structured zero-context diff. -/
def claimChanged (d : List FileDiff) : List (Str × List Nat) :=
  d.foldl specAddFile []

/-- The per-hunk counter walk as the original claim words it: every line
beginning with the addition marker records (only actual file headers are
excepted, and a hunk body contains none), and every line beginning with
the deletion marker leaves the counter unchanged. -/
def claimStrictWalk (p : Str) : Nat → List Str → List (Str × List Nat) → Nat × List (Str × List Nat)
  | n, [], A => (n, A)
  | n, b :: bs, A =>
    if ("+".data).isPrefixOf b then claimStrictWalk p (n + 1) bs (addLn A p n)
    else if ("-".data).isPrefixOf b then claimStrictWalk p n bs A
    else claimStrictWalk p (n + 1) bs A

/-- The per-file recorded line sets under the original claim's reading. -/
def claimStrictChanged (d : List FileDiff) : List (Str × List Nat) :=
  d.foldl (fun A fd =>
    fd.hunks.foldl (fun B h => (claimStrictWalk fd.path h.newStart h.body B).2)
      (ensureEntry A fd.path)) []

/-- Well-formedness of a structured zero-context diff: nonempty paths and
every body line starts with an addition or deletion marker and is not
itself shaped like a new-file header. -/
def diffWF (d : List FileDiff) : Prop :=
  ∀ fd ∈ d, fd.path ≠ [] ∧ ∀ h ∈ fd.hunks, ∀ b ∈ h.body,
    ((("+".data).isPrefixOf b ∨ ("-".data).isPrefixOf b) ∧ ¬ ("+++ b/".data).isPrefixOf b)

/-- Python `dict.setdefault(k, set()).update(ts)` on an insertion-ordered
association list of test sets: the present entry absorbs the tests in
place, an absent key appends a fresh entry. -/
def updA : List (Str × Finset Str) → Str → Finset Str → List (Str × Finset Str)
  | [], k, ts => [(k, ts)]
  | (a, b) :: ps, k, ts => if a = k then (a, b ∪ ts) :: ps else (a, b) :: updA ps k ts

/-- One coverage entry folded into the two lookup maps (lines 792 to
797): the full key normalized, and the signature part normalized. -/
def buildStep (ms : List (Str × Finset Str) × List (Str × Finset Str))
    (kv : Str × List Str) : List (Str × Finset Str) × List (Str × Finset Str) :=
  (updA ms.1 (normalize_to_compare kv.1) kv.2.toFinset,
   updA ms.2 (normalize_to_compare (split_path_and_sig kv.1).2) kv.2.toFinset)

/-- The precomputed lookup maps of `find_tests_for_functions` (lines 789
to 798): normalized full key to tests, and normalized signature alone to
tests, both accumulated over the coverage map in order. -/
def build_cov_maps (cov : List (Str × List Str)) :
    List (Str × Finset Str) × List (Str × Finset Str) :=
  cov.foldl buildStep ([], [])

/-- Python `max(pairs, key=second, default=(None, 0.0))`: walk the list
keeping the current best and replace it only on a strictly greater key,
so the first maximum wins ties. -/
def pymax (f : Str → Rat) : List Str → Option Str × Rat
  | [] => (none, 0)
  | s :: rest => rest.foldl (fun b x => if f x > b.2 then (some x, f x) else b) (some s, f s)

/-- The reported match type.  The source uses the strings none, direct,
path_removed and the formatted fuzzy ratio; the ratio payload here
carries the exact value the source would format. -/
inductive MType where
  | noneT
  | direct
  | path_removed
  | fuzzy (r : Rat)
deriving DecidableEq, Repr

/-- The per-function outcome of the matching loop: the matched test set,
the match type, and the alternate-signature outcome that the source only
prints in its would-have log line (present exactly when that log line
would fire). -/
structure FuncMatch where
  tests : Finset Str
  mtype : MType
  altInfo : Option (MType × Finset Str)
deriving DecidableEq

/-- The fuzzy acceptance threshold 0.95 of line 849 (the float literal as
an exact rational). -/
def thresh : Rat := mkRat 95 100

/-- The normalized full path-and-signature key of a changed function
(line 821). -/
def fullKeyNorm (func : Str) : Str :=
  let ps := split_path_and_sig func
  normalize_to_compare (ps.1 ++ ':' :: ps.2)

/-- The normalized signature-only key of a changed function (line 822). -/
def sigNorm (func : Str) : Str := normalize_to_compare (split_path_and_sig func).2

/-- The fuzzy tier (lines 840 to 855): the best coverage signature by
similarity, accepted only at or above the threshold; its test set is
looked up with an empty default.  The similarity function models the
external difflib SequenceMatcher ratio. -/
def fuzzyTier (covS : List (Str × Finset Str)) (sigs : List Str)
    (sim : Str → Str → Rat) (sigN : Str) : MType × Finset Str :=
  match (pymax (sim sigN) sigs).1 with
  | some b =>
    if (pymax (sim sigN) sigs).2 ≥ thresh then
      (MType.fuzzy (pymax (sim sigN) sigs).2, (List.lookup b covS).getD ∅)
    else (MType.noneT, ∅)
  | none => (MType.noneT, ∅)

/-- The alternate-signature retry of tiers one to three (lines 860 to
884), applied to the recorded alternate key through the same key
normalizations. -/
def altTier (covF covS : List (Str × Finset Str)) (sigs : List Str)
    (sim : Str → Str → Rat) (alt_func : Str) : MType × Finset Str :=
  match List.lookup (fullKeyNorm alt_func) covF with
  | some ts => (MType.direct, ts)
  | none =>
    match List.lookup (sigNorm alt_func) covS with
    | some ts => (MType.path_removed, ts)
    | none => fuzzyTier covS sigs sim (sigNorm alt_func)

/-- The per-function body of the matching loop (lines 815 to 903): tier
one is the normalized full key, tier two the normalized signature, tier
three fuzzy; on an empty result the recorded alternate signature is
retried through the same tiers, but its outcome is only logged (kept here
in `altInfo`) and never changes the matched tests or the match type. -/
def process_function (covF covS : List (Str × Finset Str)) (sigs : List Str)
    (sim : Str → Str → Rat) (alt_map : List (Str × Str)) (func : Str) : FuncMatch :=
  match List.lookup (fullKeyNorm func) covF with
  | some ts => ⟨ts, MType.direct, none⟩
  | none =>
    match List.lookup (sigNorm func) covS with
    | some ts => ⟨ts, MType.path_removed, none⟩
    | none =>
      ⟨(fuzzyTier covS sigs sim (sigNorm func)).2,
        (fuzzyTier covS sigs sim (sigNorm func)).1,
        if (fuzzyTier covS sigs sim (sigNorm func)).2 = ∅ then
          match List.lookup func alt_map with
          | some altf =>
            if (altTier covF covS sigs sim altf).2 ≠ ∅ then
              some (altTier covF covS sigs sim altf)
            else none
          | none => none
        else none⟩

/-- The statistics dictionary returned by `find_tests_for_functions`
(lines 912 to 921).  The per-test counts dictionary is kept as its
counting function. -/
structure MatchStats where
  all_covering_tests : Finset Str
  functions_with_tests : Nat
  functions_without_tests : Nat
  total_tests : Nat
  function_test_counts : List (Str × Nat)
  test_function_counts : Str → Nat
  direct_matches : Nat
  path_removed_matches : Nat

/-- Python dict assignment on an insertion-ordered association list: a
present key is overwritten in place, an absent key appends at the end. -/
def updN : List (Str × Nat) → Str → Nat → List (Str × Nat)
  | [], k, v => [(k, v)]
  | (a, b) :: ps, k, v => if a = k then (a, v) :: ps else (a, b) :: updN ps k v

/-- The all-zero statistics of the not-loaded early return (lines 740 to
750). -/
def zeroStats : MatchStats := ⟨∅, 0, 0, 0, [], fun _ => 0, 0, 0⟩

/-- One iteration of the matching loop's statistics updates (lines 815
to 903): the tier counters move with the match type (a fuzzy success
increments the path-removed counter, line 853), and the with-tests and
without-tests counters follow whether the matched set is nonempty. -/
def stepStats (pf : Str → FuncMatch) (st : MatchStats) (func : Str) : MatchStats :=
  let r := pf func
  let dm := st.direct_matches + (if r.mtype = MType.direct then 1 else 0)
  let pm := st.path_removed_matches +
    (match r.mtype with
     | MType.path_removed => 1
     | MType.fuzzy _ => 1
     | _ => 0)
  if r.tests = ∅ then
    { st with functions_without_tests := st.functions_without_tests + 1,
              function_test_counts := updN st.function_test_counts func 0,
              direct_matches := dm, path_removed_matches := pm }
  else
    { st with all_covering_tests := st.all_covering_tests ∪ r.tests,
              functions_with_tests := st.functions_with_tests + 1,
              function_test_counts := updN st.function_test_counts func r.tests.card,
              test_function_counts :=
                fun t => st.test_function_counts t + (if t ∈ r.tests then 1 else 0),
              direct_matches := dm, path_removed_matches := pm }

/-- The per-function matcher closure of `find_tests_for_functions`: the
loop body applied over the lookup maps built from the loaded coverage
map. -/
def matcherOf (cov : List (Str × List Str)) (alt_map : List (Str × Str))
    (sim : Str → Str → Rat) : Str → FuncMatch :=
  process_function (build_cov_maps cov).1 (build_cov_maps cov).2
    ((build_cov_maps cov).2.map Prod.fst) sim alt_map

/-- Model of `find_tests_for_functions` (lines 737 to 921): an empty (or
unloaded) coverage map returns the zero statistics; otherwise the lookup
maps are built, every function is processed in order, and the total is
the size of the accumulated union of covering tests. -/
def find_tests_for_functions (cov : List (Str × List Str)) (alt_map : List (Str × Str))
    (sim : Str → Str → Rat) (functions : List Str) : MatchStats :=
  if cov = [] then zeroStats
  else
    let final := functions.foldl (stepStats (matcherOf cov alt_map sim)) zeroStats
    { final with total_tests := final.all_covering_tests.card }

/-! ### Theorems -/

theorem keyLt_irrefl (a : Int × Int) : keyLt a a = false := by
  simp only [keyLt, decide_eq_false_iff_not]
  omega

theorem keyLt_trans {a b c : Int × Int} (h1 : keyLt a b = true) (h2 : keyLt b c = true) :
    keyLt a c = true := by
  simp only [keyLt, decide_eq_true_eq] at h1 h2 ⊢
  omega

theorem keyLt_le_trans {a b c : Int × Int} (h1 : keyLt b a = false) (h2 : keyLt b c = true) :
    keyLt a c = true := by
  simp only [keyLt, decide_eq_true_eq, decide_eq_false_iff_not] at h1 h2 ⊢
  omega

theorem pymin_mem (key : FuncSpan → Int × Int) :
    ∀ (xs : List FuncSpan) (x : FuncSpan), pymin key x xs ∈ x :: xs := by
  intro xs
  induction xs with
  | nil => intro x; simp [pymin]
  | cons y ys ih =>
    intro x
    have hred : pymin key x (y :: ys) =
        pymin key (if keyLt (key y) (key x) then y else x) ys := rfl
    rw [hred]
    rcases List.mem_cons.1 (ih (if keyLt (key y) (key x) then y else x)) with h | h
    · rw [h]
      by_cases hc : keyLt (key y) (key x) = true
      · simp [hc]
      · simp only [Bool.not_eq_true] at hc
        simp [hc]
    · simp [h]

theorem pymin_not_lt (key : FuncSpan → Int × Int) :
    ∀ (xs : List FuncSpan) (x z : FuncSpan), z ∈ x :: xs →
      keyLt (key z) (key (pymin key x xs)) = false := by
  intro xs
  induction xs with
  | nil =>
    intro x z hz
    simp only [List.mem_singleton] at hz
    subst hz
    simpa [pymin] using keyLt_irrefl (key z)
  | cons y ys ih =>
    intro x z hz
    have hred : pymin key x (y :: ys) =
        pymin key (if keyLt (key y) (key x) then y else x) ys := rfl
    by_cases hc0 : keyLt (key y) (key x) = true
    · rw [hred, if_pos hc0]
      rcases List.mem_cons.1 hz with h | h
      · subst h
        have hy := ih y y (List.mem_cons_self _ _)
        by_cases hzb : keyLt (key z) (key (pymin key y ys)) = true
        · have := keyLt_trans hc0 hzb
          rw [this] at hy
          exact absurd hy (by simp)
        · simpa using hzb
      · exact ih y z h
    · rw [hred, if_neg hc0]
      rcases List.mem_cons.1 hz with h | h
      · subst h
        exact ih z z (List.mem_cons_self _ _)
      · rcases List.mem_cons.1 h with h2 | h2
        · subst h2
          have hx := ih x x (List.mem_cons_self _ _)
          by_cases hzb : keyLt (key z) (key (pymin key x ys)) = true
          · have : keyLt (key x) (key (pymin key x ys)) = true :=
              keyLt_le_trans (by simpa using hc0) hzb
            rw [this] at hx
            exact absurd hx (by simp)
          · simpa using hzb
        · exact ih x z (List.mem_cons_of_mem _ h2)

/-- C4: for every changed line, when several qualifying post-commit spans
contain the line, the selection takes the span with the smallest
end minus start, ties broken by the smallest start; in particular with
overlapping spans one through one hundred and forty through sixty and a
changed line at fifty, the inner span wins. -/
theorem c4_innermost_selection :
    (∀ (funcs : List FuncSpan) (ln : Nat) (f : FuncSpan),
      choose_innermost funcs ln = some f →
        f ∈ candidates funcs ln ∧
        ∀ c ∈ candidates funcs ln,
          ((f.endL : Int) - f.startL < (c.endL : Int) - c.startL ∨
            ((f.endL : Int) - f.startL = (c.endL : Int) - c.startL ∧
              (f.startL : Int) ≤ c.startL))) ∧
    choose_innermost
      [⟨("cvc5::outer()").data, none, 1, 100⟩, ⟨("cvc5::inner()").data, none, 40, 60⟩] 50 =
      some ⟨("cvc5::inner()").data, none, 40, 60⟩ := by
  constructor
  · intro funcs ln f hf
    unfold choose_innermost at hf
    cases hc : candidates funcs ln with
    | nil => rw [hc] at hf; simp at hf
    | cons c cs =>
      rw [hc] at hf
      simp only [Option.some.injEq] at hf
      subst hf
      constructor
      · exact pymin_mem pyKey cs c
      · intro z hz
        have := pymin_not_lt pyKey cs c z hz
        simp only [keyLt, pyKey, decide_eq_false_iff_not] at this
        omega
  · decide

/-- C3: a selected post-commit function that also exists in the
pre-commit file under the same signature key survives the emission filter
exactly when its normalized body slice differs from the pre-commit one;
byte-equal normalized bodies mean exclusion as a pure move. -/
theorem c3_pure_move_suppression
    (sel : List (Str × FuncSpan)) (bs after_src : Str)
    (before_by_sig : List (Str × FuncSpan)) (k : Str) (f bf : FuncSpan)
    (hlk : List.lookup k before_by_sig = some bf) :
    ((k, f) ∈ emit_changed (some bs) before_by_sig after_src sel ↔
      ((k, f) ∈ sel ∧ normalized_body bs bf ≠ normalized_body after_src f)) := by
  simp only [emit_changed, List.mem_filter, is_pure_move, hlk]
  constructor
  · rintro ⟨hm, hp⟩
    refine ⟨hm, ?_⟩
    intro he
    rw [he] at hp
    simp at hp
  · rintro ⟨hm, hne⟩
    refine ⟨hm, ?_⟩
    simpa using hne

def c3before : Str :=
  ("pad\nA1\nx = 1; // old\nA3\nB1\ny = 2;\nB3").data

def c3after : Str :=
  ("pad\npad2\nA1\nx = 1; /* new */\nA3\nB1\ny = 3;\nB3").data

def c3fA : FuncSpan := ⟨("cvc5::A()").data, none, 3, 5⟩

def c3fB : FuncSpan := ⟨("cvc5::B()").data, none, 6, 8⟩

def c3bfA : FuncSpan := ⟨("cvc5::A()").data, none, 2, 4⟩

def c3bfB : FuncSpan := ⟨("cvc5::B()").data, none, 5, 7⟩

def c3bbs : List (Str × FuncSpan) :=
  [(("cvc5::A()").data, c3bfA), (("cvc5::B()").data, c3bfB)]

def c3sel : List (Str × FuncSpan) :=
  [(("cvc5::A()").data, c3fA), (("cvc5::B()").data, c3fB)]

theorem c3_pure_move_suppression_witness :
    ((("cvc5::B()").data, c3fB) ∈ emit_changed (some c3before) c3bbs c3after c3sel ↔
      ((("cvc5::B()").data, c3fB) ∈ c3sel ∧
        normalized_body c3before c3bfB ≠ normalized_body c3after c3fB)) ∧
    (("cvc5::B()").data, c3fB) ∈ emit_changed (some c3before) c3bbs c3after c3sel ∧
    (("cvc5::A()").data, c3fA) ∉ emit_changed (some c3before) c3bbs c3after c3sel :=
  ⟨c3_pure_move_suppression c3sel c3before c3after c3bbs (("cvc5::B()").data) c3fB c3bfB
      (by decide),
    by decide, by decide⟩

theorem c4_innermost_selection_witness :
    (⟨("cvc5::inner()").data, none, 40, 60⟩ : FuncSpan) ∈
      candidates [⟨("cvc5::outer()").data, none, 1, 100⟩, ⟨("cvc5::inner()").data, none, 40, 60⟩] 50 ∧
    ∀ c ∈ candidates
        [⟨("cvc5::outer()").data, none, 1, 100⟩, ⟨("cvc5::inner()").data, none, 40, 60⟩] 50,
      (((60 : Nat) : Int) - (40 : Nat) < (c.endL : Int) - c.startL ∨
        (((60 : Nat) : Int) - (40 : Nat) = (c.endL : Int) - c.startL ∧
          (((40 : Nat) : Int)) ≤ c.startL)) :=
  c4_innermost_selection.1
    [⟨("cvc5::outer()").data, none, 1, 100⟩, ⟨("cvc5::inner()").data, none, 40, 60⟩] 50
    ⟨("cvc5::inner()").data, none, 40, 60⟩ (by decide)

theorem fuzzyTier_below (covS : List (Str × Finset Str)) (sigs : List Str)
    (sim : Str → Str → Rat) (s : Str)
    (h : ¬ (pymax (sim s) sigs).2 ≥ thresh) :
    fuzzyTier covS sigs sim s = (MType.noneT, ∅) := by
  unfold fuzzyTier
  cases hb : (pymax (sim s) sigs).1 with
  | none => rfl
  | some b => exact if_neg h

theorem process_function_after_misses (covF covS : List (Str × Finset Str)) (sigs : List Str)
    (sim : Str → Str → Rat) (alt_map : List (Str × Str)) (func : Str)
    (h1 : List.lookup (fullKeyNorm func) covF = none)
    (h2 : List.lookup (sigNorm func) covS = none) :
    (process_function covF covS sigs sim alt_map func).tests =
      (fuzzyTier covS sigs sim (sigNorm func)).2 ∧
    (process_function covF covS sigs sim alt_map func).mtype =
      (fuzzyTier covS sigs sim (sigNorm func)).1 := by
  unfold process_function
  rw [h1, h2]
  exact ⟨rfl, rfl⟩

/-- C1: the matching tiers are attempted in order and the first success
determines both the matched set and the match type; a normalized full-key
hit is reported as direct, with a result independent of the similarity
function (so no fuzzy decoy can override it), and a signature-only hit is
reported as path-removed. -/
theorem c1_matching_tier_order
    (cov : List (Str × List Str)) (alt_map : List (Str × Str))
    (sim sim' : Str → Str → Rat) (func : Str) :
    (∀ ts, List.lookup (fullKeyNorm func) (build_cov_maps cov).1 = some ts →
      matcherOf cov alt_map sim func = ⟨ts, MType.direct, none⟩ ∧
      matcherOf cov alt_map sim func = matcherOf cov alt_map sim' func) ∧
    (List.lookup (fullKeyNorm func) (build_cov_maps cov).1 = none →
      ∀ ts, List.lookup (sigNorm func) (build_cov_maps cov).2 = some ts →
        matcherOf cov alt_map sim func = ⟨ts, MType.path_removed, none⟩) := by
  constructor
  · intro ts h
    constructor
    · simp only [matcherOf, process_function, h]
    · simp only [matcherOf, process_function, h]
  · intro h1 ts h2
    simp only [matcherOf, process_function, h1, h2]

def c1cov : List (Str × List Str) :=
  [(("a.cpp:cvc5::f(int):10").data, [("t1").data]),
   (("z.cpp:cvc5::decoy(int):9").data, [("t9").data])]

def c1sim (_ _ : Str) : Rat := 1

theorem c1_matching_tier_order_witness :
    matcherOf c1cov [] c1sim (("a.cpp:cvc5::f(int):44").data) =
      ⟨([("t1").data]).toFinset, MType.direct, none⟩ :=
  ((c1_matching_tier_order c1cov [] c1sim c1sim (("a.cpp:cvc5::f(int):44").data)).1
    ([("t1").data]).toFinset (by decide)).1

/-- C7: with the first two tiers missed, the fuzzy tier accepts the
best-similarity coverage signature exactly when its ratio reaches the
threshold of ninety five hundredths, reporting a fuzzy match type
carrying that ratio; below the threshold the function matches nothing in
this tier. -/
theorem c7_fuzzy_threshold
    (cov : List (Str × List Str)) (alt_map : List (Str × Str))
    (sim : Str → Str → Rat) (func : Str)
    (h1 : List.lookup (fullKeyNorm func) (build_cov_maps cov).1 = none)
    (h2 : List.lookup (sigNorm func) (build_cov_maps cov).2 = none) :
    (∀ b,
      (pymax (sim (sigNorm func)) ((build_cov_maps cov).2.map Prod.fst)).1 = some b →
      (pymax (sim (sigNorm func)) ((build_cov_maps cov).2.map Prod.fst)).2 ≥ thresh →
      (matcherOf cov alt_map sim func).mtype =
        MType.fuzzy (pymax (sim (sigNorm func)) ((build_cov_maps cov).2.map Prod.fst)).2 ∧
      (matcherOf cov alt_map sim func).tests =
        (List.lookup b (build_cov_maps cov).2).getD ∅) ∧
    (¬ (pymax (sim (sigNorm func)) ((build_cov_maps cov).2.map Prod.fst)).2 ≥ thresh →
      (matcherOf cov alt_map sim func).mtype = MType.noneT ∧
      (matcherOf cov alt_map sim func).tests = ∅) := by
  have hm := process_function_after_misses (build_cov_maps cov).1 (build_cov_maps cov).2
    ((build_cov_maps cov).2.map Prod.fst) sim alt_map func h1 h2
  constructor
  · intro b hb hge
    have hfz : fuzzyTier (build_cov_maps cov).2 ((build_cov_maps cov).2.map Prod.fst) sim
        (sigNorm func) =
        (MType.fuzzy (pymax (sim (sigNorm func)) ((build_cov_maps cov).2.map Prod.fst)).2,
          (List.lookup b (build_cov_maps cov).2).getD ∅) := by
      unfold fuzzyTier
      rw [hb]
      exact if_pos hge
    rw [matcherOf] at *
    exact ⟨by rw [hm.2, hfz], by rw [hm.1, hfz]⟩
  · intro hlt
    have hfz := fuzzyTier_below (build_cov_maps cov).2 ((build_cov_maps cov).2.map Prod.fst)
      sim (sigNorm func) hlt
    rw [matcherOf] at *
    exact ⟨by rw [hm.2, hfz], by rw [hm.1, hfz]⟩

def c7cov : List (Str × List Str) := [(("b.cpp:cvc5::g(long):5").data, [("t3").data])]

def c7func : Str := ("x.cpp:cvc5::zz(int):9").data

def c7sim94 (_ _ : Str) : Rat := mkRat 94 100

def c7sim95 (_ _ : Str) : Rat := mkRat 95 100

theorem c7_fuzzy_threshold_witness :
    (matcherOf c7cov [] c7sim95 c7func).mtype = MType.fuzzy (mkRat 95 100) ∧
    (matcherOf c7cov [] c7sim95 c7func).tests =
      (List.lookup (("cvc5::g(long)").data) (build_cov_maps c7cov).2).getD ∅ ∧
    (matcherOf c7cov [] c7sim94 c7func).mtype = MType.noneT ∧
    (matcherOf c7cov [] c7sim94 c7func).tests = ∅ := by
  have h95 := (c7_fuzzy_threshold c7cov [] c7sim95 c7func (by decide) (by decide)).1
    (("cvc5::g(long)").data) (by decide) (by decide)
  have h94 := (c7_fuzzy_threshold c7cov [] c7sim94 c7func (by decide) (by decide)).2
    (by decide)
  refine ⟨?_, h95.2, h94.1, h94.2⟩
  have : (pymax (c7sim95 (sigNorm c7func)) ((build_cov_maps c7cov).2.map Prod.fst)).2 =
      mkRat 95 100 := by decide
  rw [h95.1, this]

/-- C8 as amended: when the three tiers miss on the primary signature and
an alternate signature is recorded, the matcher repeats the tiers against
the alternate, but the outcome is only logged: the function's matched
test set stays empty and its match type stays none, while the logged
alternate outcome carries the plain direct, path-removed or fuzzy tag of
whichever alternate tier succeeded. -/
theorem c8_alt_logged_only
    (cov : List (Str × List Str)) (alt_map : List (Str × Str))
    (sim : Str → Str → Rat) (func altf : Str)
    (h1 : List.lookup (fullKeyNorm func) (build_cov_maps cov).1 = none)
    (h2 : List.lookup (sigNorm func) (build_cov_maps cov).2 = none)
    (h3 : ¬ (pymax (sim (sigNorm func)) ((build_cov_maps cov).2.map Prod.fst)).2 ≥ thresh)
    (h4 : List.lookup func alt_map = some altf) :
    (matcherOf cov alt_map sim func).tests = ∅ ∧
    (matcherOf cov alt_map sim func).mtype = MType.noneT ∧
    (matcherOf cov alt_map sim func).altInfo =
      (if (altTier (build_cov_maps cov).1 (build_cov_maps cov).2
            ((build_cov_maps cov).2.map Prod.fst) sim altf).2 ≠ ∅ then
        some (altTier (build_cov_maps cov).1 (build_cov_maps cov).2
          ((build_cov_maps cov).2.map Prod.fst) sim altf)
      else none) ∧
    (∀ ts, List.lookup (fullKeyNorm altf) (build_cov_maps cov).1 = some ts →
      altTier (build_cov_maps cov).1 (build_cov_maps cov).2
        ((build_cov_maps cov).2.map Prod.fst) sim altf = (MType.direct, ts)) ∧
    (List.lookup (fullKeyNorm altf) (build_cov_maps cov).1 = none →
      ∀ ts, List.lookup (sigNorm altf) (build_cov_maps cov).2 = some ts →
        altTier (build_cov_maps cov).1 (build_cov_maps cov).2
          ((build_cov_maps cov).2.map Prod.fst) sim altf = (MType.path_removed, ts)) ∧
    (List.lookup (fullKeyNorm altf) (build_cov_maps cov).1 = none →
      List.lookup (sigNorm altf) (build_cov_maps cov).2 = none →
        altTier (build_cov_maps cov).1 (build_cov_maps cov).2
          ((build_cov_maps cov).2.map Prod.fst) sim altf =
        fuzzyTier (build_cov_maps cov).2 ((build_cov_maps cov).2.map Prod.fst) sim
          (sigNorm altf)) := by
  have hfz := fuzzyTier_below (build_cov_maps cov).2 ((build_cov_maps cov).2.map Prod.fst)
    sim (sigNorm func) h3
  refine ⟨?_, ?_, ?_, ?_, ?_, ?_⟩
  · simp only [matcherOf, process_function, h1, h2, hfz, h4]
  · simp only [matcherOf, process_function, h1, h2, hfz, h4]
  · simp only [matcherOf, process_function, h1, h2, hfz, h4]
    simp
  · intro ts hts
    unfold altTier
    rw [hts]
  · intro hn ts hts
    unfold altTier
    rw [hn, hts]
  · intro hn1 hn2
    unfold altTier
    rw [hn1, hn2]

def c8cov : List (Str × List Str) := [(("b.cpp:cvc5::g(long):5").data, [("t3").data])]

def c8func : Str := ("x.cpp:cvc5::w(short):9").data

def c8alt : List (Str × Str) := [(c8func, ("b.cpp:cvc5::g(long):7").data)]

def c8sim (_ _ : Str) : Rat := 0

/-- C8 counterexample: a function whose primary signature misses every
tier but whose recorded alternate signature direct-matches a coverage
entry with a nonempty test list is still reported with an empty matched
test set and match type none (and counted as a function without tests);
no alt-prefixed match type is ever reported. -/
theorem c8_alt_counterexample :
    (matcherOf c8cov c8alt c8sim c8func).altInfo =
      some (MType.direct, ([("t3").data]).toFinset) ∧
    (matcherOf c8cov c8alt c8sim c8func).tests = ∅ ∧
    (matcherOf c8cov c8alt c8sim c8func).mtype = MType.noneT ∧
    (find_tests_for_functions c8cov c8alt c8sim [c8func]).functions_without_tests = 1 := by
  decide

theorem c8_alt_logged_only_witness :
    (matcherOf c8cov c8alt c8sim c8func).tests = ∅ ∧
    (matcherOf c8cov c8alt c8sim c8func).mtype = MType.noneT ∧
    (matcherOf c8cov c8alt c8sim c8func).altInfo =
      (if (altTier (build_cov_maps c8cov).1 (build_cov_maps c8cov).2
            ((build_cov_maps c8cov).2.map Prod.fst) c8sim (("b.cpp:cvc5::g(long):7").data)).2
          ≠ ∅ then
        some (altTier (build_cov_maps c8cov).1 (build_cov_maps c8cov).2
          ((build_cov_maps c8cov).2.map Prod.fst) c8sim (("b.cpp:cvc5::g(long):7").data))
      else none) := by
  have h := c8_alt_logged_only c8cov c8alt c8sim c8func (("b.cpp:cvc5::g(long):7").data)
    (by decide) (by decide) (by decide) (by decide)
  exact ⟨h.1, h.2.1, h.2.2.1⟩

theorem lookup_cons_self {β : Type} (a : Str) (b : β) (ps : List (Str × β)) :
    List.lookup a ((a, b) :: ps) = some b := by
  simp [List.lookup]

theorem lookup_cons_ne {β : Type} (k a : Str) (b : β) (ps : List (Str × β)) (h : ¬ k = a) :
    List.lookup k ((a, b) :: ps) = List.lookup k ps := by
  have hb : (k == a) = false := beq_eq_false_iff_ne.mpr h
  simp [List.lookup, hb]

theorem lookup_updN_self (k : Str) (v : Nat) :
    ∀ m : List (Str × Nat), List.lookup k (updN m k v) = some v := by
  intro m
  induction m with
  | nil => exact lookup_cons_self k v []
  | cons p ps ih =>
    obtain ⟨a, b⟩ := p
    by_cases hk : a = k
    · subst hk
      rw [updN, if_pos rfl]
      exact lookup_cons_self a v ps
    · rw [updN, if_neg hk, lookup_cons_ne k a b _ (fun he => hk he.symm)]
      exact ih

theorem lookup_updN_other (k k' : Str) (v : Nat) (hne : k ≠ k') :
    ∀ m : List (Str × Nat), List.lookup k (updN m k' v) = List.lookup k m := by
  intro m
  induction m with
  | nil =>
    have hb : (k == k') = false := beq_eq_false_iff_ne.mpr hne
    simp [updN, List.lookup, hb]
  | cons p ps ih =>
    obtain ⟨a, b⟩ := p
    by_cases hk : a = k'
    · subst hk
      rw [updN, if_pos rfl, lookup_cons_ne k a v ps hne, lookup_cons_ne k a b ps hne]
    · rw [updN, if_neg hk]
      by_cases hka : k = a
      · subst hka
        rw [lookup_cons_self, lookup_cons_self]
      · rw [lookup_cons_ne k a b _ hka, lookup_cons_ne k a b _ hka]
        exact ih

theorem lookup_updN_isSome (m : List (Str × Nat)) (k k' : Str) (v : Nat)
    (h : (List.lookup k m).isSome) : (List.lookup k (updN m k' v)).isSome := by
  by_cases hk : k = k'
  · subst hk
    rw [lookup_updN_self]
    rfl
  · rw [lookup_updN_other k k' v hk m]
    exact h

theorem stepStats_ftc (pf : Str → FuncMatch) (st : MatchStats) (f : Str) :
    (stepStats pf st f).function_test_counts =
      updN st.function_test_counts f ((pf f).tests.card) := by
  unfold stepStats
  by_cases h : (pf f).tests = ∅
  · simp [h]
  · simp [h]

theorem stepStats_without (pf : Str → FuncMatch) (st : MatchStats) (f : Str) :
    (stepStats pf st f).functions_without_tests =
      st.functions_without_tests + (if (pf f).tests = ∅ then 1 else 0) := by
  unfold stepStats
  by_cases h : (pf f).tests = ∅ <;> simp [h]

theorem stepStats_with (pf : Str → FuncMatch) (st : MatchStats) (f : Str) :
    (stepStats pf st f).functions_with_tests =
      st.functions_with_tests + (if (pf f).tests = ∅ then 0 else 1) := by
  unfold stepStats
  by_cases h : (pf f).tests = ∅ <;> simp [h]

theorem stepStats_counters (pf : Str → FuncMatch) (st : MatchStats) (f : Str) :
    (stepStats pf st f).direct_matches + (stepStats pf st f).path_removed_matches =
      st.direct_matches + st.path_removed_matches +
        (if (pf f).mtype = MType.noneT then 0 else 1) := by
  unfold stepStats
  by_cases h : (pf f).tests = ∅ <;>
    cases hmt : (pf f).mtype <;> simp [h, hmt] <;> omega

theorem stepStats_union (pf : Str → FuncMatch) (st : MatchStats) (f : Str) :
    (stepStats pf st f).all_covering_tests = st.all_covering_tests ∪ (pf f).tests := by
  unfold stepStats
  by_cases h : (pf f).tests = ∅
  · simp [h]
  · simp [h]

theorem fold_without (pf : Str → FuncMatch) :
    ∀ (l : List Str) (st : MatchStats),
      (l.foldl (stepStats pf) st).functions_without_tests =
        st.functions_without_tests + l.countP (fun f => (pf f).tests = ∅) := by
  intro l
  induction l with
  | nil => intro st; simp
  | cons f fs ih =>
    intro st
    rw [List.foldl_cons, ih, stepStats_without, List.countP_cons]
    by_cases h : (pf f).tests = ∅ <;> simp [h] <;> omega

theorem fold_with (pf : Str → FuncMatch) :
    ∀ (l : List Str) (st : MatchStats),
      (l.foldl (stepStats pf) st).functions_with_tests =
        st.functions_with_tests + l.countP (fun f => ¬ (pf f).tests = ∅) := by
  intro l
  induction l with
  | nil => intro st; simp
  | cons f fs ih =>
    intro st
    rw [List.foldl_cons, ih, stepStats_with, List.countP_cons]
    by_cases h : (pf f).tests = ∅ <;> simp [h] <;> omega

theorem fold_counters (pf : Str → FuncMatch) :
    ∀ (l : List Str) (st : MatchStats),
      (l.foldl (stepStats pf) st).direct_matches +
        (l.foldl (stepStats pf) st).path_removed_matches =
      st.direct_matches + st.path_removed_matches +
        l.countP (fun f => ¬ (pf f).mtype = MType.noneT) := by
  intro l
  induction l with
  | nil => intro st; simp
  | cons f fs ih =>
    intro st
    rw [List.foldl_cons, ih, stepStats_counters, List.countP_cons]
    by_cases h : (pf f).mtype = MType.noneT <;> simp [h] <;> omega

theorem fold_union (pf : Str → FuncMatch) :
    ∀ (l : List Str) (st : MatchStats),
      (l.foldl (stepStats pf) st).all_covering_tests =
        l.foldl (fun A f => A ∪ (pf f).tests) st.all_covering_tests := by
  intro l
  induction l with
  | nil => intro st; simp
  | cons f fs ih =>
    intro st
    rw [List.foldl_cons, ih, List.foldl_cons, stepStats_union]

theorem fold_ftc_notmem (pf : Str → FuncMatch) :
    ∀ (l : List Str) (st : MatchStats) (g : Str), g ∉ l →
      List.lookup g ((l.foldl (stepStats pf) st).function_test_counts) =
        List.lookup g st.function_test_counts := by
  intro l
  induction l with
  | nil => intro st g _; rfl
  | cons f fs ih =>
    intro st g hg
    have hgf : g ≠ f := fun he => hg (he ▸ List.mem_cons_self _ _)
    have hgs : g ∉ fs := fun hm => hg (List.mem_cons_of_mem _ hm)
    rw [List.foldl_cons, ih _ g hgs, stepStats_ftc, lookup_updN_other g f _ hgf]

theorem fold_ftc_some (pf : Str → FuncMatch) :
    ∀ (l : List Str) (st : MatchStats) (g : Str),
      g ∈ l ∨ (List.lookup g st.function_test_counts).isSome →
      (List.lookup g ((l.foldl (stepStats pf) st).function_test_counts)).isSome := by
  intro l
  induction l with
  | nil =>
    intro st g hg
    rcases hg with hg | hg
    · simp at hg
    · exact hg
  | cons f fs ih =>
    intro st g hg
    rw [List.foldl_cons]
    rcases hg with hg | hg
    · rcases List.mem_cons.1 hg with hgf | hgs
      · refine ih _ g (Or.inr ?_)
        subst hgf
        rw [stepStats_ftc, lookup_updN_self]
        rfl
      · exact ih _ g (Or.inl hgs)
    · refine ih _ g (Or.inr ?_)
      rw [stepStats_ftc]
      exact lookup_updN_isSome _ _ _ _ hg

/-- C9: a changed function that matches under no tier is handled as
uncovered, not as an error: its match type is none and its matched set
empty, its per-function test count is recorded as zero, it is counted in
the functions-without-tests total, and processing still covers every
function in the list, producing a complete statistics record. -/
theorem c9_unmatched_is_uncovered
    (cov : List (Str × List Str)) (alt_map : List (Str × Str)) (sim : Str → Str → Rat)
    (pre post : List Str) (func : Str)
    (hcov : cov ≠ [])
    (h1 : List.lookup (fullKeyNorm func) (build_cov_maps cov).1 = none)
    (h2 : List.lookup (sigNorm func) (build_cov_maps cov).2 = none)
    (h3 : ¬ (pymax (sim (sigNorm func)) ((build_cov_maps cov).2.map Prod.fst)).2 ≥ thresh)
    (hpost : func ∉ post) :
    (matcherOf cov alt_map sim func).mtype = MType.noneT ∧
    (matcherOf cov alt_map sim func).tests = ∅ ∧
    List.lookup func
      (find_tests_for_functions cov alt_map sim (pre ++ func :: post)).function_test_counts =
      some 0 ∧
    (find_tests_for_functions cov alt_map sim (pre ++ func :: post)).functions_without_tests =
      (pre ++ func :: post).countP (fun g => (matcherOf cov alt_map sim g).tests = ∅) ∧
    ∀ g ∈ pre ++ func :: post,
      (List.lookup g (find_tests_for_functions cov alt_map sim
        (pre ++ func :: post)).function_test_counts).isSome := by
  have hfz := fuzzyTier_below (build_cov_maps cov).2 ((build_cov_maps cov).2.map Prod.fst)
    sim (sigNorm func) h3
  have hpm := process_function_after_misses (build_cov_maps cov).1 (build_cov_maps cov).2
    ((build_cov_maps cov).2.map Prod.fst) sim alt_map func h1 h2
  have htests : (matcherOf cov alt_map sim func).tests = ∅ := by
    rw [matcherOf, hpm.1, hfz]
  have hmt : (matcherOf cov alt_map sim func).mtype = MType.noneT := by
    rw [matcherOf, hpm.2, hfz]
  have hft : find_tests_for_functions cov alt_map sim (pre ++ func :: post) =
      { (pre ++ func :: post).foldl (stepStats (matcherOf cov alt_map sim)) zeroStats with
        total_tests := ((pre ++ func :: post).foldl (stepStats (matcherOf cov alt_map sim))
          zeroStats).all_covering_tests.card } := by
    unfold find_tests_for_functions
    rw [if_neg hcov]
  refine ⟨hmt, htests, ?_, ?_, ?_⟩
  · rw [hft]
    show List.lookup func (((pre ++ func :: post).foldl
      (stepStats (matcherOf cov alt_map sim)) zeroStats).function_test_counts) = some 0
    rw [List.foldl_append, List.foldl_cons]
    rw [fold_ftc_notmem _ post _ func hpost, stepStats_ftc, lookup_updN_self, htests]
    simp
  · rw [hft]
    show ((pre ++ func :: post).foldl (stepStats (matcherOf cov alt_map sim))
        zeroStats).functions_without_tests = _
    rw [fold_without]
    simp [zeroStats]
  · intro g hg
    rw [hft]
    exact fold_ftc_some _ _ _ g (Or.inl hg)

def c9cov : List (Str × List Str) := [(("a.cpp:cvc5::f(int):10").data, [("t1").data])]

def c9func : Str := ("q.cpp:cvc5::nada(void):3").data

theorem c9_unmatched_is_uncovered_witness :
    (matcherOf c9cov [] c8sim c9func).mtype = MType.noneT ∧
    (matcherOf c9cov [] c8sim c9func).tests = ∅ ∧
    List.lookup c9func
      (find_tests_for_functions c9cov [] c8sim
        [("a.cpp:cvc5::f(int):44").data, c9func]).function_test_counts = some 0 ∧
    (find_tests_for_functions c9cov [] c8sim
      [("a.cpp:cvc5::f(int):44").data, c9func]).functions_without_tests =
      ([("a.cpp:cvc5::f(int):44").data, c9func]).countP
        (fun g => (matcherOf c9cov [] c8sim g).tests = ∅) ∧
    ∀ g ∈ [("a.cpp:cvc5::f(int):44").data, c9func],
      (List.lookup g (find_tests_for_functions c9cov [] c8sim
        [("a.cpp:cvc5::f(int):44").data, c9func]).function_test_counts).isSome :=
  c9_unmatched_is_uncovered c9cov [] c8sim [("a.cpp:cvc5::f(int):44").data] [] c9func
    (by decide) (by decide) (by decide) (by decide) (by decide)

/-- C10 counterexample: with a loaded coverage map whose single entry
carries an empty test list, the direct tier fires (incrementing the
direct counter) while the function is still counted as having no tests,
so the with-tests count differs from the sum of the direct and
path-removed counters. -/
theorem c10_stats_counterexample :
    (find_tests_for_functions [(("a.cpp:cvc5::f(int):10").data, [])] [] c8sim
      [("a.cpp:cvc5::f(int):44").data]).direct_matches = 1 ∧
    (find_tests_for_functions [(("a.cpp:cvc5::f(int):10").data, [])] [] c8sim
      [("a.cpp:cvc5::f(int):44").data]).path_removed_matches = 0 ∧
    (find_tests_for_functions [(("a.cpp:cvc5::f(int):10").data, [])] [] c8sim
      [("a.cpp:cvc5::f(int):44").data]).functions_with_tests = 0 ∧
    (find_tests_for_functions [(("a.cpp:cvc5::f(int):10").data, [])] [] c8sim
      [("a.cpp:cvc5::f(int):44").data]).functions_with_tests ≠
      (find_tests_for_functions [(("a.cpp:cvc5::f(int):10").data, [])] [] c8sim
        [("a.cpp:cvc5::f(int):44").data]).direct_matches +
      (find_tests_for_functions [(("a.cpp:cvc5::f(int):10").data, [])] [] c8sim
        [("a.cpp:cvc5::f(int):44").data]).path_removed_matches := by
  decide

/-- All values of a test-set map are nonempty. -/
def nonemptyVals (m : List (Str × Finset Str)) : Prop := ∀ p ∈ m, p.2 ≠ ∅

theorem updA_nonempty (k : Str) (ts : Finset Str) (hts : ts ≠ ∅) :
    ∀ m, nonemptyVals m → nonemptyVals (updA m k ts) := by
  intro m
  induction m with
  | nil =>
    intro _ p hp
    simp only [updA, List.mem_singleton] at hp
    subst hp
    exact hts
  | cons q qs ih =>
    obtain ⟨a, b⟩ := q
    intro hm p hp
    by_cases hk : a = k
    · rw [updA, if_pos hk] at hp
      rcases List.mem_cons.1 hp with h | h
      · subst h
        have hb : b ≠ ∅ := hm (a, b) (List.mem_cons_self _ _)
        simp only [ne_eq, Finset.union_eq_empty]
        intro hc
        exact hb hc.1
      · exact hm p (List.mem_cons_of_mem _ h)
    · rw [updA, if_neg hk] at hp
      rcases List.mem_cons.1 hp with h | h
      · subst h
        exact hm (a, b) (List.mem_cons_self _ _)
      · exact ih (fun q hq => hm q (List.mem_cons_of_mem _ hq)) p h

theorem toFinset_ne_empty_of_ne_nil {l : List Str} (h : l ≠ []) : l.toFinset ≠ ∅ := by
  cases l with
  | nil => exact absurd rfl h
  | cons a t =>
    have : a ∈ (a :: t).toFinset := by simp
    exact Finset.ne_empty_of_mem this

theorem build_fold_nonempty :
    ∀ (cov : List (Str × List Str)) (acc : List (Str × Finset Str) × List (Str × Finset Str)),
      (∀ kv ∈ cov, kv.2 ≠ []) → nonemptyVals acc.1 → nonemptyVals acc.2 →
      nonemptyVals (cov.foldl buildStep acc).1 ∧ nonemptyVals (cov.foldl buildStep acc).2 := by
  intro cov
  induction cov with
  | nil => intro acc _ h1 h2; exact ⟨h1, h2⟩
  | cons kv rest ih =>
    intro acc hc h1 h2
    rw [List.foldl_cons]
    have hts : kv.2.toFinset ≠ ∅ :=
      toFinset_ne_empty_of_ne_nil (hc kv (List.mem_cons_self _ _))
    exact ih (buildStep acc kv) (fun q hq => hc q (List.mem_cons_of_mem _ hq))
      (updA_nonempty _ _ hts acc.1 h1) (updA_nonempty _ _ hts acc.2 h2)

theorem build_cov_maps_nonempty (cov : List (Str × List Str))
    (hc : ∀ kv ∈ cov, kv.2 ≠ []) :
    nonemptyVals (build_cov_maps cov).1 ∧ nonemptyVals (build_cov_maps cov).2 :=
  build_fold_nonempty cov ([], []) hc (by intro p hp; simp at hp)
    (by intro p hp; simp at hp)

theorem lookup_nonempty : ∀ (m : List (Str × Finset Str)), nonemptyVals m →
    ∀ {k : Str} {ts : Finset Str}, List.lookup k m = some ts → ts ≠ ∅ := by
  intro m
  induction m with
  | nil => intro _ k ts h; simp [List.lookup] at h
  | cons q qs ih =>
    obtain ⟨a, b⟩ := q
    intro hm k ts h
    by_cases hk : k = a
    · subst hk
      rw [lookup_cons_self] at h
      cases h
      exact hm (k, b) (List.mem_cons_self _ _)
    · rw [lookup_cons_ne k a b qs hk] at h
      exact ih (fun q hq => hm q (List.mem_cons_of_mem _ hq)) h

theorem lookup_isSome_of_key (b : Str) :
    ∀ m : List (Str × Finset Str), b ∈ m.map Prod.fst → (List.lookup b m).isSome := by
  intro m
  induction m with
  | nil => intro h; simp at h
  | cons q qs ih =>
    obtain ⟨a, c⟩ := q
    intro h
    by_cases hk : b = a
    · subst hk
      rw [lookup_cons_self]
      rfl
    · rw [lookup_cons_ne b a c qs hk]
      simp only [List.map_cons, List.mem_cons] at h
      rcases h with h2 | h2
      · exact absurd h2 hk
      · exact ih h2

theorem pymax_fold_mem (f : Str → Rat) :
    ∀ (rest : List Str) (acc : Option Str × Rat) (b : Str),
      (rest.foldl (fun bb x => if f x > bb.2 then (some x, f x) else bb) acc).1 = some b →
      acc.1 = some b ∨ b ∈ rest := by
  intro rest
  induction rest with
  | nil => intro acc b h; exact Or.inl h
  | cons x xs ih =>
    intro acc b h
    rw [List.foldl_cons] at h
    rcases ih _ b h with h2 | h2
    · by_cases hx : f x > acc.2
      · rw [if_pos hx] at h2
        cases h2
        exact Or.inr (List.mem_cons_self _ _)
      · rw [if_neg hx] at h2
        exact Or.inl h2
    · exact Or.inr (List.mem_cons_of_mem _ h2)

theorem pymax_mem (f : Str → Rat) (l : List Str) (b : Str)
    (h : (pymax f l).1 = some b) : b ∈ l := by
  cases l with
  | nil => simp [pymax] at h
  | cons s rest =>
    rcases pymax_fold_mem f rest (some s, f s) b h with h2 | h2
    · cases h2
      exact List.mem_cons_self _ _
    · exact List.mem_cons_of_mem _ h2

theorem matcher_tests_empty_iff (cov : List (Str × List Str)) (alt_map : List (Str × Str))
    (sim : Str → Str → Rat) (func : Str) (hc : ∀ kv ∈ cov, kv.2 ≠ []) :
    ((matcherOf cov alt_map sim func).tests = ∅ ↔
      (matcherOf cov alt_map sim func).mtype = MType.noneT) := by
  obtain ⟨hne1, hne2⟩ := build_cov_maps_nonempty cov hc
  unfold matcherOf process_function
  cases hl1 : List.lookup (fullKeyNorm func) (build_cov_maps cov).1 with
  | some ts =>
    have hts := lookup_nonempty _ hne1 hl1
    simp [hts]
  | none =>
    cases hl2 : List.lookup (sigNorm func) (build_cov_maps cov).2 with
    | some ts =>
      have hts := lookup_nonempty _ hne2 hl2
      simp [hts]
    | none =>
      cases hb : (pymax (sim (sigNorm func)) ((build_cov_maps cov).2.map Prod.fst)).1 with
      | none =>
        have hfz : fuzzyTier (build_cov_maps cov).2 ((build_cov_maps cov).2.map Prod.fst)
            sim (sigNorm func) = (MType.noneT, ∅) := by
          unfold fuzzyTier
          rw [hb]
        simp [hfz]
      | some b =>
        by_cases hth : (pymax (sim (sigNorm func))
            ((build_cov_maps cov).2.map Prod.fst)).2 ≥ thresh
        · have hbm : b ∈ (build_cov_maps cov).2.map Prod.fst := pymax_mem _ _ b hb
          obtain ⟨ts, hlb⟩ := Option.isSome_iff_exists.1
            (lookup_isSome_of_key b (build_cov_maps cov).2 hbm)
          have hts := lookup_nonempty _ hne2 hlb
          have hfz : fuzzyTier (build_cov_maps cov).2 ((build_cov_maps cov).2.map Prod.fst)
              sim (sigNorm func) =
              (MType.fuzzy (pymax (sim (sigNorm func))
                ((build_cov_maps cov).2.map Prod.fst)).2, ts) := by
            unfold fuzzyTier
            rw [hb]
            exact (if_pos hth).trans (by rw [hlb]; rfl)
          simp [hfz, hts]
        · have hfz := fuzzyTier_below (build_cov_maps cov).2
            ((build_cov_maps cov).2.map Prod.fst) sim (sigNorm func) hth
          simp [hfz]

theorem countP_not_add {α : Type} (p : α → Bool) :
    ∀ l : List α, l.countP (fun x => ! p x) + l.countP p = l.length := by
  intro l
  induction l with
  | nil => simp
  | cons a t ih =>
    rw [List.countP_cons, List.countP_cons]
    by_cases h : p a <;> simp [h] <;> omega

/-- C10 as amended: when a nonempty coverage map is loaded and every
coverage entry carries at least one test, the statistics satisfy the
claimed invariants: the with-tests and without-tests counts partition the
input list, the with-tests count equals the direct plus path-removed
counters (a fuzzy success increments the path-removed counter), and the
total is the size of the union of the per-function matched sets. -/
theorem c10_stats_invariants (cov : List (Str × List Str)) (alt_map : List (Str × Str))
    (sim : Str → Str → Rat) (functions : List Str)
    (hcov : cov ≠ []) (hvals : ∀ kv ∈ cov, kv.2 ≠ []) :
    (find_tests_for_functions cov alt_map sim functions).functions_with_tests +
      (find_tests_for_functions cov alt_map sim functions).functions_without_tests =
      functions.length ∧
    (find_tests_for_functions cov alt_map sim functions).functions_with_tests =
      (find_tests_for_functions cov alt_map sim functions).direct_matches +
      (find_tests_for_functions cov alt_map sim functions).path_removed_matches ∧
    (find_tests_for_functions cov alt_map sim functions).total_tests =
      (functions.foldl (fun A f => A ∪ (matcherOf cov alt_map sim f).tests) ∅).card := by
  have hft : find_tests_for_functions cov alt_map sim functions =
      { functions.foldl (stepStats (matcherOf cov alt_map sim)) zeroStats with
        total_tests := (functions.foldl (stepStats (matcherOf cov alt_map sim))
          zeroStats).all_covering_tests.card } := by
    unfold find_tests_for_functions
    rw [if_neg hcov]
  refine ⟨?_, ?_, ?_⟩
  · rw [hft]
    show (functions.foldl (stepStats (matcherOf cov alt_map sim))
        zeroStats).functions_with_tests +
      (functions.foldl (stepStats (matcherOf cov alt_map sim))
        zeroStats).functions_without_tests = functions.length
    rw [fold_with, fold_without]
    have htot := countP_not_add
      (fun f => decide ((matcherOf cov alt_map sim f).tests = ∅)) functions
    have hc2 : functions.countP (fun f => ¬ (matcherOf cov alt_map sim f).tests = ∅) =
        functions.countP
          (fun f => ! (decide ((matcherOf cov alt_map sim f).tests = ∅))) := by
      apply List.countP_congr
      intro f _
      simp
    simp only [zeroStats] at *
    rw [hc2]
    omega
  · rw [hft]
    show (functions.foldl (stepStats (matcherOf cov alt_map sim))
        zeroStats).functions_with_tests =
      (functions.foldl (stepStats (matcherOf cov alt_map sim)) zeroStats).direct_matches +
      (functions.foldl (stepStats (matcherOf cov alt_map sim))
        zeroStats).path_removed_matches
    rw [fold_with]
    have hcnt := fold_counters (matcherOf cov alt_map sim) functions zeroStats
    have hc2 : functions.countP (fun f => ¬ (matcherOf cov alt_map sim f).tests = ∅) =
        functions.countP (fun f => ¬ (matcherOf cov alt_map sim f).mtype = MType.noneT) := by
      apply List.countP_congr
      intro f _
      have hiff := matcher_tests_empty_iff cov alt_map sim f hvals
      constructor
      · intro h
        simp only [decide_eq_true_eq] at h ⊢
        intro hmt
        exact h (hiff.2 hmt)
      · intro h
        simp only [decide_eq_true_eq] at h ⊢
        intro hts
        exact h (hiff.1 hts)
    simp only [zeroStats] at *
    rw [hc2]
    omega
  · rw [hft]
    show (functions.foldl (stepStats (matcherOf cov alt_map sim))
        zeroStats).all_covering_tests.card = _
    rw [fold_union]
    rfl

theorem c10_stats_invariants_witness :
    (find_tests_for_functions c9cov [] c8sim
      [("a.cpp:cvc5::f(int):44").data, c9func]).functions_with_tests +
      (find_tests_for_functions c9cov [] c8sim
        [("a.cpp:cvc5::f(int):44").data, c9func]).functions_without_tests = 2 ∧
    (find_tests_for_functions c9cov [] c8sim
      [("a.cpp:cvc5::f(int):44").data, c9func]).functions_with_tests =
      (find_tests_for_functions c9cov [] c8sim
        [("a.cpp:cvc5::f(int):44").data, c9func]).direct_matches +
      (find_tests_for_functions c9cov [] c8sim
        [("a.cpp:cvc5::f(int):44").data, c9func]).path_removed_matches ∧
    (find_tests_for_functions c9cov [] c8sim
      [("a.cpp:cvc5::f(int):44").data, c9func]).total_tests =
      (([("a.cpp:cvc5::f(int):44").data, c9func]).foldl
        (fun A f => A ∪ (matcherOf c9cov [] c8sim f).tests) ∅).card :=
  c10_stats_invariants c9cov [] c8sim [("a.cpp:cvc5::f(int):44").data, c9func]
    (by decide) (by decide)

def c5sig : Str := ("cvc5::f(std::vector<std::vector<int> >):10").data

/-- C5 counterexample: normalization is not idempotent at a realistic
signature with a nested std::vector parameter; the allocator-expansion
step of the second application rewrites the first application's output
again. -/
theorem c5_idempotence_counterexample :
    normalize_to_compare (normalize_to_compare c5sig) ≠ normalize_to_compare c5sig := by
  decide

/-- C5 as amended: normalization is idempotent at every signature whose
normalized form is a fixed point of each stage of the pipeline
(line-suffix strip, signature normalization, symbol respacing, comma
respacing, whitespace collapse, vector-allocator expansion).  This
sufficient condition is not necessary (a signature such as f(x, &y) is a
normalization fixed point although symbol respacing alone moves it, with
comma respacing undoing the move), and idempotence fails in general: a
second application can strip a further colon-number suffix or re-expand
a std::vector introduced inside an allocator argument. -/
theorem c5_idempotence_on_stage_fixed_points (s : Str)
    (h1 : strip_line_suffix (normalize_to_compare s) = normalize_to_compare s)
    (h2 : normalize_function_signature (normalize_to_compare s) = normalize_to_compare s)
    (h3 : ampSub (normalize_to_compare s) = normalize_to_compare s)
    (h4 : commaSub (normalize_to_compare s) = normalize_to_compare s)
    (h5 : pyStrip (squeeze false (normalize_to_compare s)) = normalize_to_compare s)
    (h6 : vecExpand (normalize_to_compare s) = normalize_to_compare s) :
    normalize_to_compare (normalize_to_compare s) = normalize_to_compare s :=
  calc normalize_to_compare (normalize_to_compare s)
      = vecExpand (pyStrip (squeeze false (commaSub (ampSub
          (normalize_function_signature (strip_line_suffix (normalize_to_compare s))))))) :=
        rfl
    _ = normalize_to_compare s := by rw [h1, h2, h3, h4, h5, h6]

def c5fixed : Str := ("src/a.cpp:cvc5::f(const std::string&, int):42").data

theorem c5_idempotence_on_stage_fixed_points_witness :
    normalize_to_compare (normalize_to_compare c5fixed) = normalize_to_compare c5fixed :=
  c5_idempotence_on_stage_fixed_points c5fixed (by decide) (by decide) (by decide)
    (by decide) (by decide) (by decide)

/-- The whitespace flag the squeezing scan carries after a string: the
starting flag when the string is empty, otherwise whether the final
character is whitespace. -/
def endFlag : Bool → Str → Bool
  | b, [] => b
  | _, c :: t => endFlag (isPySpace c) t

theorem squeeze_append : ∀ (l₁ : Str) (b : Bool) (l₂ : Str),
    squeeze b (l₁ ++ l₂) = squeeze b l₁ ++ squeeze (endFlag b l₁) l₂ := by
  intro l₁
  induction l₁ with
  | nil => intro b l₂; rfl
  | cons c t ih =>
    intro b l₂
    by_cases hc : isPySpace c
    · by_cases hb : b <;>
        simp [squeeze, endFlag, hc, hb, ih]
    · simp [squeeze, endFlag, hc, ih]

theorem endFlag_last : ∀ (l : Str) (c : Char) (b : Bool), l.getLast? = some c →
    endFlag b l = isPySpace c := by
  intro l
  induction l with
  | nil => intro c b h; simp at h
  | cons a t ih =>
    intro c b h
    cases t with
    | nil =>
      simp at h
      subst h
      rfl
    | cons a2 t2 =>
      rw [List.getLast?_cons_cons] at h
      exact ih c (isPySpace a) h

theorem dropWhile_head_false {p : Char → Bool} : ∀ {l : Str},
    (∀ c, l.head? = some c → p c = false) → l.dropWhile p = l := by
  intro l h
  cases l with
  | nil => rfl
  | cons a t =>
    have := h a rfl
    simp [List.dropWhile, this]

theorem takeWhile_head_false {p : Char → Bool} : ∀ {l : Str},
    (∀ c, l.head? = some c → p c = false) → l.takeWhile p = [] := by
  intro l h
  cases l with
  | nil => rfl
  | cons a t =>
    have := h a rfl
    simp [List.takeWhile, this]

theorem pyStrip_fixed {l : Str}
    (hh : ∀ c, l.head? = some c → isPySpace c = false)
    (hl : ∀ c, l.getLast? = some c → isPySpace c = false) : pyStrip l = l := by
  unfold pyStrip dropTrail
  rw [dropWhile_head_false hh]
  rw [dropWhile_head_false ?_, List.reverse_reverse]
  intro c hc
  apply hl
  rw [← List.head?_reverse]
  exact hc

theorem ampRevAux_no_sym : ∀ {l : Str}, (∀ c ∈ l, isSym c = false) →
    ampRevAux false l = l := by
  intro l
  induction l with
  | nil => intro _; rfl
  | cons c t ih =>
    intro h
    have hc := h c (List.mem_cons_self _ _)
    simp [ampRevAux, hc, ih (fun x hx => h x (List.mem_cons_of_mem _ hx))]

/-- The seven characters of a space, the word const, and an ampersand. -/
def spConstAmp : Str := (" const&").data

theorem mem_of_getLast?_eq : ∀ (l : Str) (c : Char), l.getLast? = some c → c ∈ l := by
  intro l
  induction l with
  | nil => intro c h; simp at h
  | cons a t ih =>
    intro c h
    cases t with
    | nil =>
      simp at h
      subst h
      exact List.mem_cons_self _ _
    | cons b t2 =>
      rw [List.getLast?_cons_cons] at h
      exact List.mem_cons_of_mem _ (ih c h)

theorem stt_append_amp (B : Str) (hne : B ≠ [])
    (hlast : ∀ c, B.getLast? = some c → isPySpace c = false ∧ isSym c = false) :
    splitTrailingSyms (B ++ (['&'] : Str)) = some (B, ['&']) := by
  obtain ⟨c0, r, hr⟩ : ∃ c0 r, B.reverse = c0 :: r := by
    cases hB : B.reverse with
    | nil => exact absurd (by simpa using hB) hne
    | cons c0 r => exact ⟨c0, r, rfl⟩
  have hc0 : B.getLast? = some c0 := by
    rw [← List.head?_reverse, hr]
    rfl
  obtain ⟨hc0ws, hc0sym⟩ := hlast c0 hc0
  have hAmpSym : isSym '&' = true := by decide
  unfold splitTrailingSyms
  rw [List.reverse_append]
  simp only [List.reverse_cons, List.reverse_nil, List.nil_append, List.singleton_append]
  rw [hr]
  rw [show (('&' :: c0 :: r).takeWhile isSym) = '&' :: ((c0 :: r).takeWhile isSym) from by
    simp [List.takeWhile_cons, hAmpSym]]
  rw [show ((c0 :: r).takeWhile isSym) = [] from by simp [List.takeWhile_cons, hc0sym]]
  rw [if_neg (by simp)]
  rw [show (('&' :: c0 :: r).dropWhile isSym) = ((c0 :: r).dropWhile isSym) from by
    simp [List.dropWhile_cons, hAmpSym]]
  rw [show ((c0 :: r).dropWhile isSym) = c0 :: r from by simp [List.dropWhile_cons, hc0sym]]
  rw [show ((c0 :: r).takeWhile isPySpace) = [] from by simp [List.takeWhile_cons, hc0ws]]
  rw [show ((c0 :: r).dropWhile isPySpace) = c0 :: r from by simp [List.dropWhile_cons, hc0ws]]
  rw [← hr, List.reverse_reverse]
  rfl

theorem ampRevAux_cons_sym (b : Bool) (c : Char) (l : Str) (hc : isSym c = true) :
    ampRevAux b (c :: l) = c :: ampRevAux true l := by
  simp [ampRevAux, hc]

theorem ampRevAux_cons_other (b : Bool) (c : Char) (l : Str) (hc : isSym c = false)
    (hw : isPySpace c = false) :
    ampRevAux b (c :: l) = c :: ampRevAux false l := by
  cases b <;> simp [ampRevAux, hc, hw]

theorem ampRevAux_cons_false (c : Char) (l : Str) (hc : isSym c = false) :
    ampRevAux false (c :: l) = c :: ampRevAux false l := by
  simp [ampRevAux, hc]

theorem ampSub_T_spConstAmp (T : Str) (hsym : ∀ c ∈ T, isSym c = false) :
    ampSub (T ++ spConstAmp) = T ++ spConstAmp := by
  have hTrev : ∀ c ∈ T.reverse, isSym c = false := by
    intro c hc
    exact hsym c (List.mem_reverse.1 hc)
  unfold ampSub
  rw [List.reverse_append]
  rw [show (spConstAmp.reverse ++ T.reverse : Str) =
      '&' :: 't' :: 's' :: 'n' :: 'o' :: 'c' :: ' ' :: T.reverse from rfl]
  rw [ampRevAux_cons_sym _ _ _ (by decide)]
  rw [ampRevAux_cons_other _ _ _ (by decide) (by decide)]
  rw [ampRevAux_cons_false _ _ (by decide)]
  rw [ampRevAux_cons_false _ _ (by decide)]
  rw [ampRevAux_cons_false _ _ (by decide)]
  rw [ampRevAux_cons_false _ _ (by decide)]
  rw [ampRevAux_cons_false _ _ (by decide)]
  rw [ampRevAux_no_sym hTrev]
  rw [show ('&' :: 't' :: 's' :: 'n' :: 'o' :: 'c' :: ' ' :: T.reverse : Str) =
      spConstAmp.reverse ++ T.reverse from rfl]
  rw [← List.reverse_append, List.reverse_reverse]

/-- C6 counterexample: for the type string T equal to a pointer spelling,
the parameter spellings with leading and with trailing const normalize
differently (the two spellings also denote different C++ types there),
so the claim fails for arbitrary type strings. -/
theorem c6_const_placement_counterexample :
    normalize_param (("const int*&").data) ≠ normalize_param (("int* const&").data) ∧
    normalize_to_compare (("f(const int*&)").data) ≠
      normalize_to_compare (("f(int* const&)").data) := by
  constructor
  · decide
  · decide

/-- C6 as amended: for every type string T containing no reference or
pointer symbol, already whitespace-squeezed, nonempty, without leading or
trailing whitespace, and such that T followed by a trailing-const suffix
does not itself begin with the word const and a space (which excludes T
being exactly const or starting with const and a space), the parameter
normalizer maps both spellings to the same canonical form with trailing
const. -/
theorem c6_const_placement (T : Str)
    (hsq : squeeze false T = T)
    (hne : T ≠ [])
    (hhead : ∀ c, T.head? = some c → isPySpace c = false)
    (hlast : ∀ c, T.getLast? = some c → isPySpace c = false)
    (hsym : ∀ c ∈ T, isSym c = false)
    (hpre : constSp.isPrefixOf (T ++ spConstAmp) = false) :
    normalize_param (constSp ++ T ++ (['&'] : Str)) =
      normalize_param (T ++ spConstAmp) ∧
    normalize_param (constSp ++ T ++ (['&'] : Str)) = T ++ spConstAmp := by
  obtain ⟨t0, T1, hT⟩ : ∃ t0 T1, T = t0 :: T1 := by
    cases hT : T with
    | nil => exact absurd hT hne
    | cons t0 T1 => exact ⟨t0, T1, rfl⟩
  have ht0 : isPySpace t0 = false := by
    apply hhead
    rw [hT]
    rfl
  have hTlastSym : ∀ c, T.getLast? = some c → isSym c = false := by
    intro c hc
    apply hsym
    exact mem_of_getLast?_eq T c hc
  -- squeezing fixes T with an ampersand appended
  have hsqTamp : squeeze false (T ++ (['&'] : Str)) = T ++ ['&'] := by
    rw [squeeze_append, hsq]
    cases hEF : endFlag false T <;> rfl
  -- squeezing with an incoming whitespace flag agrees on a nonempty
  -- nonwhitespace-headed string
  have hsqTrue : squeeze true (T ++ (['&'] : Str)) = squeeze false (T ++ ['&']) := by
    rw [hT]
    simp [squeeze, ht0]
  -- the left input squeezes to itself
  have hsqL : squeeze false (constSp ++ (T ++ (['&'] : Str))) = constSp ++ (T ++ ['&']) := by
    rw [squeeze_append]
    rw [show squeeze false constSp = constSp from rfl]
    rw [show endFlag false constSp = true from rfl]
    rw [hsqTrue, hsqTamp]
  have hheadAmp : ∀ c, (T ++ (['&'] : Str)).head? = some c → isPySpace c = false := by
    intro c hc
    rw [hT] at hc
    simp at hc
    rw [← hc]
    exact ht0
  have hlastAmp : ∀ c, (T ++ (['&'] : Str)).getLast? = some c → isPySpace c = false := by
    intro c hc
    rw [List.getLast?_append_of_ne_nil _ (by simp)] at hc
    simp at hc
    rw [← hc]
    rfl
  have hstripTamp : pyStrip (T ++ (['&'] : Str)) = T ++ ['&'] :=
    pyStrip_fixed hheadAmp hlastAmp
  have hstripT : pyStrip T = T := pyStrip_fixed hhead hlast
  have hsttT : splitTrailingSyms (T ++ (['&'] : Str)) = some (T, ['&']) := by
    apply stt_append_amp T hne
    intro c hc
    exact ⟨hlast c hc, hTlastSym c hc⟩
  have hnpL : np_branch true (T ++ (['&'] : Str)) = pyStrip T ++ spConst ++ ['&'] := by
    unfold np_branch
    rw [hsttT]
    rfl
  -- the left-hand side evaluates to T with the trailing const suffix
  have hLHS : normalize_param (constSp ++ T ++ (['&'] : Str)) = T ++ spConstAmp := by
    unfold normalize_param
    rw [List.append_assoc, hsqL]
    rw [pyStrip_fixed
      (by
        intro c hc
        rw [show (constSp ++ (T ++ (['&'] : Str))).head? = some 'c' from rfl] at hc
        cases hc
        rfl)
      (by
        intro c hc
        rw [List.getLast?_append_of_ne_nil _ (by simp)] at hc
        exact hlastAmp c hc)]
    rw [show constSp.isPrefixOf (constSp ++ (T ++ ['&'])) = true from by
      rw [List.isPrefixOf_iff_prefix]; exact List.prefix_append _ _]
    rw [if_pos rfl]
    rw [show (constSp ++ (T ++ (['&'] : Str))).drop 6 = T ++ ['&'] from
      List.drop_left constSp (T ++ ['&'])]
    rw [hstripTamp, hnpL, hstripT]
    rw [show T ++ spConst ++ (['&'] : Str) = T ++ spConstAmp from by
      rw [List.append_assoc]; rfl]
    exact ampSub_T_spConstAmp T hsym
  -- the right-hand side evaluates to the same string
  obtain ⟨cl, hcl⟩ : ∃ cl, T.getLast? = some cl := by
    rw [hT]
    exact Option.isSome_iff_exists.1 (by simp [List.getLast?_isSome])
  have hEFT : endFlag false T = false := by
    rw [endFlag_last T cl false hcl]
    exact hlast cl hcl
  have hsttR : splitTrailingSyms (T ++ spConstAmp) = some (T ++ spConst, ['&']) := by
    rw [show T ++ spConstAmp = (T ++ spConst) ++ (['&'] : Str) from by
      rw [List.append_assoc]; rfl]
    apply stt_append_amp (T ++ spConst) (by simp [spConst])
    intro c hc
    rw [List.getLast?_append_of_ne_nil _ (by simp [spConst])] at hc
    rw [show spConst.getLast? = some 't' from rfl] at hc
    cases hc
    exact ⟨rfl, rfl⟩
  have hheadR : ∀ c, (T ++ spConstAmp).head? = some c → isPySpace c = false := by
    intro c hc
    rw [hT] at hc
    simp at hc
    rw [← hc]
    exact ht0
  have hheadC : ∀ c, (T ++ spConst).head? = some c → isPySpace c = false := by
    intro c hc
    rw [hT] at hc
    simp at hc
    rw [← hc]
    exact ht0
  have hnpR : np_branch false (T ++ spConstAmp) = pyStrip (T ++ spConst) ++ ['&'] := by
    unfold np_branch
    rw [hsttR]
    rfl
  have hRHS : normalize_param (T ++ spConstAmp) = T ++ spConstAmp := by
    unfold normalize_param
    have hsqR : squeeze false (T ++ spConstAmp) = T ++ spConstAmp := by
      rw [squeeze_append, hsq, hEFT]
      rfl
    rw [hsqR]
    rw [pyStrip_fixed hheadR (by
      intro c hc
      rw [List.getLast?_append_of_ne_nil _ (by simp [spConstAmp])] at hc
      rw [show spConstAmp.getLast? = some '&' from rfl] at hc
      cases hc
      rfl)]
    rw [hpre]
    rw [if_neg (by simp)]
    rw [hnpR]
    rw [pyStrip_fixed hheadC (by
      intro c hc
      rw [List.getLast?_append_of_ne_nil _ (by simp [spConst])] at hc
      rw [show spConst.getLast? = some 't' from rfl] at hc
      cases hc
      rfl)]
    rw [show T ++ spConst ++ (['&'] : Str) = T ++ spConstAmp from by
      rw [List.append_assoc]; rfl]
    exact ampSub_T_spConstAmp T hsym
  exact ⟨hLHS.trans hRHS.symm, hLHS⟩

theorem c6_const_placement_witness :
    normalize_param (constSp ++ ("int").data ++ (['&'] : Str)) =
      normalize_param (("int").data ++ spConstAmp) ∧
    normalize_param (constSp ++ ("int").data ++ (['&'] : Str)) = ("int").data ++ spConstAmp :=
  c6_const_placement (("int").data)
    (by decide)
    (by decide)
    (fun c hc => by
      rw [show (("int").data).head? = some 'i' from rfl] at hc
      cases hc
      decide)
    (fun c hc => by
      rw [show (("int").data).getLast? = some 't' from rfl] at hc
      cases hc
      decide)
    (by decide)
    (by decide)

theorem toDigitChar_val (m : Nat) (hm : m < 10) : (toDigitChar m).toNat - 48 = m := by
  interval_cases m <;> decide

theorem toDigitChar_isDigit (m : Nat) (hm : m < 10) : isDigitChar (toDigitChar m) = true := by
  interval_cases m <;> decide

theorem natLitFuel_all_digits : ∀ (fuel n : Nat), n ≤ fuel →
    ∀ c ∈ natLitFuel fuel n, isDigitChar c = true := by
  intro fuel
  induction fuel with
  | zero =>
    intro n hn c hc
    interval_cases n
    simp [natLitFuel] at hc
    subst hc
    decide
  | succ fuel ih =>
    intro n hn c hc
    by_cases h10 : n < 10
    · rw [show natLitFuel (fuel + 1) n = [toDigitChar n] from by simp [natLitFuel, h10]] at hc
      simp at hc
      subst hc
      exact toDigitChar_isDigit n h10
    · rw [show natLitFuel (fuel + 1) n =
          natLitFuel fuel (n / 10) ++ [toDigitChar (n % 10)] from by
        simp [natLitFuel, h10]] at hc
      rcases List.mem_append.1 hc with hcl | hcr
      · exact ih (n / 10) (by omega) c hcl
      · simp at hcr
        subst hcr
        exact toDigitChar_isDigit (n % 10) (by omega)

theorem natLit_all_digits (n : Nat) : ∀ c ∈ natLit n, isDigitChar c = true :=
  natLitFuel_all_digits n n le_rfl

theorem natLitFuel_ne_nil (fuel n : Nat) : natLitFuel fuel n ≠ [] := by
  cases fuel with
  | zero => simp [natLitFuel]
  | succ fuel => by_cases h10 : n < 10 <;> simp [natLitFuel, h10]

theorem natLit_ne_nil (n : Nat) : natLit n ≠ [] := natLitFuel_ne_nil n n

theorem digitsVal_append (ds : Str) (c : Char) :
    digitsVal (ds ++ [c]) = 10 * digitsVal ds + (c.toNat - 48) := by
  unfold digitsVal
  rw [List.foldl_append]
  rfl

theorem digitsVal_natLitFuel : ∀ (fuel n : Nat), n ≤ fuel →
    digitsVal (natLitFuel fuel n) = n := by
  intro fuel
  induction fuel with
  | zero =>
    intro n hn
    interval_cases n
    decide
  | succ fuel ih =>
    intro n hn
    by_cases h10 : n < 10
    · rw [show natLitFuel (fuel + 1) n = [toDigitChar n] from by simp [natLitFuel, h10]]
      rw [show digitsVal [toDigitChar n] = 10 * 0 + ((toDigitChar n).toNat - 48) from rfl]
      rw [toDigitChar_val n h10]
      omega
    · rw [show natLitFuel (fuel + 1) n =
          natLitFuel fuel (n / 10) ++ [toDigitChar (n % 10)] from by
        simp [natLitFuel, h10]]
      rw [digitsVal_append, ih (n / 10) (by omega), toDigitChar_val (n % 10) (by omega)]
      omega

theorem digitsVal_natLit (n : Nat) : digitsVal (natLit n) = n := digitsVal_natLitFuel n n le_rfl

theorem takeWhile_append_all {p : Char → Bool} : ∀ {l₁ l₂ : Str}, (∀ c ∈ l₁, p c = true) →
    (l₁ ++ l₂).takeWhile p = l₁ ++ l₂.takeWhile p := by
  intro l₁
  induction l₁ with
  | nil => intro l₂ _; rfl
  | cons a t ih =>
    intro l₂ h
    have ha := h a (List.mem_cons_self _ _)
    simp [List.takeWhile_cons, ha, ih (fun c hc => h c (List.mem_cons_of_mem _ hc))]

theorem dropWhile_append_all {p : Char → Bool} : ∀ {l₁ l₂ : Str}, (∀ c ∈ l₁, p c = true) →
    (l₁ ++ l₂).dropWhile p = l₂.dropWhile p := by
  intro l₁
  induction l₁ with
  | nil => intro l₂ _; rfl
  | cons a t ih =>
    intro l₂ h
    have ha := h a (List.mem_cons_self _ _)
    simp [List.dropWhile_cons, ha, ih (fun c hc => h c (List.mem_cons_of_mem _ hc))]

theorem parseDigits_natLit_append (n : Nat) (r : Str)
    (hr : ∀ c, r.head? = some c → isDigitChar c = false) :
    parseDigits (natLit n ++ r) = some (n, r) := by
  unfold parseDigits
  rw [takeWhile_append_all (natLit_all_digits n), takeWhile_head_false hr, List.append_nil]
  rw [dropWhile_append_all (natLit_all_digits n), dropWhile_head_false hr]
  rw [if_neg (natLit_ne_nil n), digitsVal_natLit]

theorem afterNum_comma (t : Str) : afterNum (',' :: t) = (parseDigits t).map Prod.snd := by
  unfold afterNum
  rw [List.head?_cons, if_pos rfl]
  rfl

theorem isPrefixOf_self_append (x r : Str) : x.isPrefixOf (x ++ r) = true := by
  rw [List.isPrefixOf_iff_prefix]
  exact List.prefix_append _ _

theorem drop4_hdr (r : Str) : (("@@ -".data) ++ r).drop 4 = r := rfl

theorem drop2_hdr (r : Str) : ((" +".data) ++ r).drop 2 = r := rfl

theorem matchPat_build (a b c d : Nat) :
    matchPat (("@@ -".data) ++ (natLit a ++ ',' :: (natLit b ++ ((" +".data) ++
      (natLit c ++ ',' :: (natLit d ++ (" @@".data))))))) = some c := by
  have hcomma : ∀ (t : Str) (ch : Char), (',' :: t).head? = some ch → isDigitChar ch = false := by
    intro t ch hc
    rw [List.head?_cons] at hc
    cases hc
    decide
  have hspace : ∀ (r : Str) (ch : Char),
      ((" +".data) ++ r).head? = some ch → isDigitChar ch = false := by
    intro r ch hc
    rw [show ((" +".data) ++ r).head? = some ' ' from rfl] at hc
    cases hc
    decide
  have hspace2 : ∀ ch : Char, ((" @@".data) : Str).head? = some ch → isDigitChar ch = false := by
    intro ch hc
    rw [show ((" @@".data) : Str).head? = some ' ' from rfl] at hc
    cases hc
    decide
  have e1 := parseDigits_natLit_append a
    (',' :: (natLit b ++ ((" +".data) ++ (natLit c ++ ',' :: (natLit d ++ (" @@".data))))))
    (hcomma _)
  have e2 := parseDigits_natLit_append b
    ((" +".data) ++ (natLit c ++ ',' :: (natLit d ++ (" @@".data)))) (hspace _)
  have e3 := parseDigits_natLit_append c (',' :: (natLit d ++ (" @@".data))) (hcomma _)
  have e4 := parseDigits_natLit_append d (" @@".data) hspace2
  simp only at e1 e2 e3 e4
  simp only [matchPat, isPrefixOf_self_append, eq_self_iff_true, if_true,
    show ∀ r : Str, (['@', '@', ' ', '-'] ++ r).drop 4 = r from fun r => rfl,
    show ∀ r : Str, ([' ', '+'] ++ r).drop 2 = r from fun r => rfl,
    e1, Option.some_bind, afterNum_comma, e2, Option.map_some', e3, e4,
    show ([' ', '@', '@'] : Str).isPrefixOf [' ', '@', '@'] = true from by decide]

theorem matchPat_header (hk : Hunk) : matchPat (hunkHeader hk) = some hk.newStart := by
  rw [show hunkHeader hk = ("@@ -".data) ++ (natLit hk.oldStart ++ ',' :: (natLit hk.oldCount ++
      ((" +".data) ++ (natLit hk.newStart ++ ',' :: (natLit hk.newCount ++ (" @@".data)))))) from by
    unfold hunkHeader
    simp [List.append_assoc]]
  exact matchPat_build hk.oldStart hk.oldCount hk.newStart hk.newCount

theorem findHunk_of_matchPat : ∀ (l : Str) (v : Nat), matchPat l = some v → findHunk l = some v := by
  intro l v h
  cases l with
  | nil => rw [show findHunk [] = matchPat [] from rfl, h]
  | cons c t =>
    unfold findHunk
    rw [h]

theorem findHunk_header (hk : Hunk) : findHunk (hunkHeader hk) = some hk.newStart :=
  findHunk_of_matchPat (hunkHeader hk) hk.newStart (matchPat_header hk)

theorem isPrefixOf_singleton (c : Char) (b : Str) (h : (([c] : Str).isPrefixOf b) = true) :
    ∃ t, b = c :: t := by
  rw [List.isPrefixOf_iff_prefix] at h
  obtain ⟨t, ht⟩ := h
  exact ⟨t, ht.symm⟩

theorem step_git (st : DState) (r : Str) :
    stepLine st (("diff --git a/".data) ++ r) = ⟨none, false, none, st.changed⟩ := rfl

theorem step_old_hdr (A : List (Str × List Nat)) (p : Str) :
    stepLine ⟨none, false, none, A⟩ (("--- a/".data) ++ p) = ⟨none, false, none, A⟩ := rfl

theorem step_new_hdr (cf : Option Str) (inh : Bool) (nl : Option Nat)
    (A : List (Str × List Nat)) (p : Str) :
    stepLine ⟨cf, inh, nl, A⟩ (("+++ b/".data) ++ p) = ⟨some p, inh, nl, ensureEntry A p⟩ := by
  unfold stepLine
  rw [show (("diff --git ".data) : Str).isPrefixOf (("+++ b/".data) ++ p) = false from rfl]
  rw [if_neg (by simp)]
  rw [isPrefixOf_self_append]
  rw [if_pos rfl]
  rfl

theorem step_hunk_hdr (f : Str) (inh : Bool) (nl : Option Nat) (A : List (Str × List Nat))
    (hk : Hunk) (hf : f ≠ []) :
    stepLine ⟨some f, inh, nl, A⟩ (hunkHeader hk) = ⟨some f, true, some hk.newStart, A⟩ := by
  unfold stepLine
  rw [show (("diff --git ".data) : Str).isPrefixOf (hunkHeader hk) = false from rfl]
  rw [if_neg (by simp)]
  rw [show (("+++ b/".data) : Str).isPrefixOf (hunkHeader hk) = false from rfl]
  rw [if_neg (by simp)]
  rw [show (("@@ ".data) : Str).isPrefixOf (hunkHeader hk) = true from rfl]
  rw [if_pos rfl]
  rw [findHunk_header hk]
  exact if_pos hf

theorem claimWalk_cons (p : Str) (n : Nat) (b : Str) (bs : List Str)
    (A : List (Str × List Nat)) :
    claimWalk p n (b :: bs) A =
      if isPlusLine b then claimWalk p (n + 1) bs (addLn A p n)
      else if isMinusLine b then claimWalk p n bs A
      else claimWalk p (n + 1) bs A := rfl

theorem foldl_body : ∀ (bs : List Str) (f : Str) (n : Nat) (A : List (Str × List Nat)),
    (∀ b ∈ bs, ((("+".data) : Str).isPrefixOf b = true ∨ (("-".data) : Str).isPrefixOf b = true) ∧
      ¬ (("+++ b/".data) : Str).isPrefixOf b = true) →
    bs.foldl stepLine ⟨some f, true, some n, A⟩ =
      ⟨some f, true, some (claimWalk f n bs A).1, (claimWalk f n bs A).2⟩ := by
  intro bs
  induction bs with
  | nil => intro f n A _; rfl
  | cons b bs ih =>
    intro f n A hWF
    obtain ⟨hpm, h3⟩ := hWF b (List.mem_cons_self _ _)
    have hWFt := fun x hx => hWF x (List.mem_cons_of_mem _ hx)
    have hstep : stepLine ⟨some f, true, some n, A⟩ b =
        if isPlusLine b then ⟨some f, true, some (n + 1), addLn A f n⟩
        else if isMinusLine b then ⟨some f, true, some n, A⟩
        else ⟨some f, true, some (n + 1), A⟩ := by
      rcases hpm with hp | hm
      · obtain ⟨t, ht⟩ := isPrefixOf_singleton '+' b hp
        subst ht
        unfold stepLine
        rw [show (("diff --git ".data) : Str).isPrefixOf ('+' :: t) = false from rfl]
        rw [if_neg (by simp)]
        rw [if_neg h3]
        rw [show (("@@ ".data) : Str).isPrefixOf ('+' :: t) = false from rfl]
        rw [if_neg (by simp)]
      · obtain ⟨t, ht⟩ := isPrefixOf_singleton '-' b hm
        subst ht
        unfold stepLine
        rw [show (("diff --git ".data) : Str).isPrefixOf ('-' :: t) = false from rfl]
        rw [if_neg (by simp)]
        rw [show (("+++ b/".data) : Str).isPrefixOf ('-' :: t) = false from rfl]
        rw [if_neg (by simp)]
        rw [show (("@@ ".data) : Str).isPrefixOf ('-' :: t) = false from rfl]
        rw [if_neg (by simp)]
    rw [List.foldl_cons, hstep, claimWalk_cons]
    by_cases hP : isPlusLine b
    · rw [if_pos hP, if_pos hP, ih f (n + 1) (addLn A f n) hWFt]
    · rw [if_neg hP, if_neg hP]
      by_cases hM : isMinusLine b
      · rw [if_pos hM, if_pos hM, ih f n A hWFt]
      · rw [if_neg hM, if_neg hM, ih f (n + 1) A hWFt]

theorem foldl_hunks : ∀ (hs : List Hunk) (f : Str) (inh : Bool) (nl : Option Nat)
    (A : List (Str × List Nat)), f ≠ [] →
    (∀ h ∈ hs, ∀ b ∈ h.body,
      ((("+".data) : Str).isPrefixOf b = true ∨ (("-".data) : Str).isPrefixOf b = true) ∧
      ¬ (("+++ b/".data) : Str).isPrefixOf b = true) →
    ∃ inh2 nl2, (hs.flatMap renderHunk).foldl stepLine ⟨some f, inh, nl, A⟩ =
      ⟨some f, inh2, nl2, hs.foldl (fun B h => specAddHunk f B h) A⟩ := by
  intro hs
  induction hs with
  | nil => intro f inh nl A _ _; exact ⟨inh, nl, rfl⟩
  | cons hk hs ih =>
    intro f inh nl A hf hWF
    rw [show ((hk :: hs).flatMap renderHunk) = renderHunk hk ++ hs.flatMap renderHunk from rfl]
    rw [List.foldl_append]
    rw [show renderHunk hk = hunkHeader hk :: hk.body from rfl]
    rw [List.foldl_cons]
    rw [step_hunk_hdr f inh nl A hk hf]
    rw [foldl_body hk.body f hk.newStart A (hWF hk (List.mem_cons_self _ _))]
    obtain ⟨inh2, nl2, hrest⟩ := ih f true (some (claimWalk f hk.newStart hk.body A).1)
      ((claimWalk f hk.newStart hk.body A).2) hf
      (fun x hx => hWF x (List.mem_cons_of_mem _ hx))
    exact ⟨inh2, nl2, hrest⟩

theorem foldl_files : ∀ (fds : List FileDiff) (st : DState), diffWF fds →
    ((fds.flatMap renderFile).foldl stepLine st).changed = fds.foldl specAddFile st.changed := by
  intro fds
  induction fds with
  | nil => intro st _; rfl
  | cons fd fds ih =>
    intro st hWF
    obtain ⟨hpath, hbody⟩ := hWF fd (List.mem_cons_self _ _)
    rw [show ((fd :: fds).flatMap renderFile) = renderFile fd ++ fds.flatMap renderFile from rfl]
    rw [List.foldl_append]
    rw [show renderFile fd = (("diff --git a/".data) ++ (fd.path ++ ((" b/".data) ++ fd.path))) ::
        (("--- a/".data) ++ fd.path) :: (("+++ b/".data) ++ fd.path) ::
        fd.hunks.flatMap renderHunk from by
      unfold renderFile
      simp [List.append_assoc]]
    rw [List.foldl_cons, step_git st (fd.path ++ ((" b/".data) ++ fd.path))]
    rw [List.foldl_cons, step_old_hdr st.changed fd.path]
    rw [List.foldl_cons, step_new_hdr none false none st.changed fd.path]
    obtain ⟨inh2, nl2, hh⟩ := foldl_hunks fd.hunks fd.path false none
      (ensureEntry st.changed fd.path) hpath hbody
    rw [hh]
    rw [ih ⟨some fd.path, inh2, nl2, fd.hunks.foldl (fun B h => specAddHunk fd.path B h)
      (ensureEntry st.changed fd.path)⟩ (fun x hx => hWF x (List.mem_cons_of_mem _ hx))]
    rfl

def c2diffX : List FileDiff := [⟨("f.cpp").data, [⟨1, 1, 2, 1, [("+++i;").data]⟩]⟩]

/-- C2 counterexample: a well-formed zero-context diff for the file f.cpp
whose single hunk adds the one line of source text ++i; at new line 2.
The diff body line +++i; begins with the addition marker and is not a
file header, so the claim's reading records line 2; the code treats every
body line beginning with three markers as context, records nothing, and
leaves the entry for f.cpp empty. -/
theorem c2_changed_lines_counterexample :
    get_changed_lines (render c2diffX) ≠ claimStrictChanged c2diffX ∧
    get_changed_lines (render c2diffX) = [(("f.cpp").data, [])] ∧
    claimStrictChanged c2diffX = [(("f.cpp").data, [2])] := by
  refine ⟨?_, ?_, ?_⟩
  · decide
  · decide
  · decide

/-- C2 as amended: on a structured zero-context diff whose body lines all
begin with an addition or deletion marker and are not shaped like a
new-file header, get_changed_lines of the rendered diff text records, per
file of a new-file header, exactly the new-side line numbers of the body
lines that begin with one addition marker but not three, each recording
advancing the new-side counter, deletion lines (one marker but not three)
leaving it unchanged; in particular a walk over a body of deletion lines
only records nothing and leaves the counter unchanged. -/
theorem c2_changed_lines (d : List FileDiff) (h : diffWF d) :
    get_changed_lines (render d) = claimChanged d ∧
    ∀ p n bs A, (∀ b ∈ bs, isMinusLine b = true) → claimWalk p n bs A = (n, A) := by
  constructor
  · exact foldl_files d initDState h
  · intro p n bs
    induction bs with
    | nil => intro A _; rfl
    | cons b bs ih =>
      intro A hM
      have hb := hM b (List.mem_cons_self _ _)
      have hb' : ((("-".data) : Str).isPrefixOf b = true) ∧
          ¬ ((("---".data) : Str).isPrefixOf b = true) := by
        simpa [isMinusLine] using hb
      obtain ⟨t, ht⟩ := isPrefixOf_singleton '-' b hb'.1
      subst ht
      rw [claimWalk_cons]
      rw [show isPlusLine ('-' :: t) = false from rfl]
      rw [if_neg (by simp)]
      rw [if_pos hb]
      exact ih A (fun x hx => hM x (List.mem_cons_of_mem _ hx))

def c2wit : List FileDiff :=
  [⟨("a.cpp").data, [⟨3, 1, 3, 2, [("-old").data, ("+new1").data, ("+new2").data]⟩]⟩]

theorem c2_changed_lines_witness :
    diffWF c2wit ∧
    (get_changed_lines (render c2wit) = claimChanged c2wit ∧
      ∀ p n bs A, (∀ b ∈ bs, isMinusLine b = true) → claimWalk p n bs A = (n, A)) :=
  ⟨by unfold diffWF; decide, c2_changed_lines c2wit (by unfold diffWF; decide)⟩

end CCA

